import Mathlib

/-!
# ChessCoach search core — verification of the prediction cache and MCTS driver

Shallow embedding of the ChessCoach search core (`PredictionCache.cpp`,
`SelfPlay.cpp`) together with proofs about the embedded operations.

Machine floats are modelled as rationals (`ℚ`), machine integers as `ℤ`/`ℕ`
(overflow is irrelevant to the properties below and noted where it could in
principle occur).  Out-parameters of C++ functions become components of the
returned values.
-/

/-! ## Quantisation (`INetwork`, Network.h)

Network.h is not among the provided sources; only its callers are.  The
quantiser is therefore modelled from the spec: a monotone map from
probabilities to `u16` quanta with `Q(0) = 1` (never zero, preserving the
guard-quantum invariant), `Q(1) = 65535`, and round-trip accurate to about
one quantum.  Concretely: scale by 65535, round to nearest, clamp up to 1.
-/

namespace INetwork

/-- Modelled from the spec: quantise a probability into a `u16` quantum,
never producing zero (`Q(0) = 1`, `Q(1) = 65535`, monotone, round-trip
accurate to ~1 quantum). -/
def QuantizeProbabilityNoZero (p : ℚ) : ℕ :=
  max 1 (round (p * 65535)).toNat

/-- Modelled from the spec: dequantise a `u16` quantum back into a
probability (`deq(Q(1)) = 1`). -/
def DequantizeProbabilityNoZero (q : ℕ) : ℚ :=
  (q : ℚ) / 65535

/-- Counterpart of the `static_assert` in `PredictionCacheChunk::TryGet`:
the quantised form of 1.0 dequantises exactly to 1.0. -/
theorem dequantize_quantize_one :
    DequantizeProbabilityNoZero (QuantizeProbabilityNoZero 1) = 1 := by
  norm_num [QuantizeProbabilityNoZero, DequantizeProbabilityNoZero, round_eq]
  norm_num [show Int.toNat 65535 = 65535 from rfl]

/-- The spec's "no zero quanta" property: `Q(p) ≥ 1` always. -/
theorem one_le_quantize (p : ℚ) : 1 ≤ QuantizeProbabilityNoZero p :=
  le_max_left _ _

/-- A single quantised prior is within one quantum of the scaled
probability, for nonnegative probabilities. -/
theorem quantize_close (p : ℚ) (hp : 0 ≤ p) :
    |(QuantizeProbabilityNoZero p : ℚ) - p * 65535| ≤ 1 := by
  unfold QuantizeProbabilityNoZero
  have hround : |p * 65535 - (round (p * 65535) : ℚ)| ≤ 1 / 2 := abs_sub_round _
  rcases le_or_lt (round (p * 65535)) 0 with hle | hpos
  · have htoNat : (round (p * 65535)).toNat = 0 := Int.toNat_of_nonpos hle
    have hub : p * 65535 ≤ 1 / 2 := by
      have := abs_le.mp hround
      have hcast : (round (p * 65535) : ℚ) ≤ 0 := by exact_mod_cast hle
      linarith [this.1, this.2]
    have hlb : 0 ≤ p * 65535 := by positivity
    rw [htoNat]
    have hone : max 1 (0 : ℕ) = 1 := rfl
    rw [hone]
    rw [abs_le]
    constructor
    · push_cast; linarith
    · push_cast; linarith
  · have htoNat : ((round (p * 65535)).toNat : ℤ) = round (p * 65535) :=
      Int.toNat_of_nonneg hpos.le
    have hmax : max 1 (round (p * 65535)).toNat = (round (p * 65535)).toNat := by
      omega
    rw [hmax]
    have hcast : ((round (p * 65535)).toNat : ℚ) = (round (p * 65535) : ℚ) := by
      exact_mod_cast htoNat
    rw [hcast, abs_sub_comm]
    linarith [abs_le.mp hround]

end INetwork

/-! ## PredictionCache data model (PredictionCache.h / PredictionCache.cpp)

`PredictionCacheEntry` is embedded with its four fields; the 56-slot
`u16` prior array is modelled as a total function `ℕ → ℕ` (reads and
writes only ever happen at indices below 56, matching
`PredictionCacheEntry::MaxMoveCount`).  `age` is a C++ `int`, modelled
as `ℤ`. -/

/-- `PredictionCacheEntry::MaxMoveCount`: positions with more moves don't
fit in the cache and so shouldn't be probed/stored. -/
def MaxMoveCount : ℕ := 56

structure PredictionCacheEntry where
  key : ℕ
  value : ℚ
  age : ℤ
  policyPriors : ℕ → ℕ

/-- `std::numeric_limits<int>::min()`, the "freshest" age. -/
def intMin : ℤ := -(2 ^ 31)

/-- `PredictionCacheChunk::EntryCount`. -/
def EntryCount : ℕ := 8

structure PredictionCacheChunk where
  entries : Fin 8 → PredictionCacheEntry

namespace PredictionCacheChunk

/-- `PredictionCacheChunk::Clear`: zero the key and age of every entry
(value and priors are left as they are). -/
def Clear (c : PredictionCacheChunk) : PredictionCacheChunk :=
  ⟨fun i => { c.entries i with key := 0, age := 0 }⟩

/-- The first loop of `TryGet`: increment the age of all 8 entries. -/
def AgeAll (c : PredictionCacheChunk) : PredictionCacheChunk :=
  ⟨fun i => { c.entries i with age := (c.entries i).age + 1 }⟩

/-- The entry scan of `TryGet`: the first entry (in index order) whose
full key equals the probe key, mirroring the `for`/`if` loop. -/
def firstMatchAux (c : PredictionCacheChunk) (key : ℕ) :
    List (Fin 8) → Option (Fin 8)
  | [] => none
  | i :: rest =>
      if (c.entries i).key = key then some i else firstMatchAux c key rest

def firstMatch (c : PredictionCacheChunk) (key : ℕ) : Option (Fin 8) :=
  firstMatchAux c key (List.finRange 8)

/-- The quantised prior sum over the probing move count
(`priorSum` in `TryGet`). -/
def priorSum (e : PredictionCacheEntry) (moveCount : ℕ) : ℕ :=
  ∑ m ∈ Finset.range moveCount, e.policyPriors m

/-- The sum-guard acceptance test of `TryGet`: the loop computes
`priorSum` and rejects unless it is within `allowance = 120` quanta of
`expected = Q(1.0)`. -/
def sumCheckOk (e : PredictionCacheEntry) (moveCount : ℕ) : Prop :=
  let expected := INetwork.QuantizeProbabilityNoZero 1
  let allowance := 120
  ¬(priorSum e moveCount < expected - allowance ∨
    priorSum e moveCount > expected + allowance)

instance (e : PredictionCacheEntry) (moveCount : ℕ) :
    Decidable (sumCheckOk e moveCount) := by
  unfold sumCheckOk; infer_instance

/-- `PredictionCacheChunk::TryGet`.  Out-parameters become the returned
`Option`: `some (value, priors)` is a hit populating `valueOut` and
`priorsOut`; `none` is a miss.  The updated chunk (ages, freshening) is
returned alongside.  On a sum-guard reject the partial writes into the
`priorsOut` scratch space are irrelevant to callers and not modelled. -/
def TryGet (c : PredictionCacheChunk) (key : ℕ) (moveCount : ℕ) :
    PredictionCacheChunk × Option (ℚ × List ℚ) :=
  match (AgeAll c).firstMatch key with
  | none => (AgeAll c, none)
  | some i =>
      if sumCheckOk ((AgeAll c).entries i) moveCount then
        (⟨Function.update (AgeAll c).entries i
            { (AgeAll c).entries i with age := intMin }⟩,
         some (((AgeAll c).entries i).value,
           (List.range moveCount).map
             (fun m => INetwork.DequantizeProbabilityNoZero
               (((AgeAll c).entries i).policyPriors m))))
      else
        (AgeAll c, none)

/-- The slot-selection loop of `Put`: starting from `oldestIndex = 0`,
stop at the first entry holding the same full key, otherwise remember the
entry with the strictly largest age seen so far. -/
def putIndexAux (c : PredictionCacheChunk) (key : ℕ) :
    List (Fin 8) → Fin 8 → Fin 8
  | [], oldest => oldest
  | i :: rest, oldest =>
      if (c.entries i).key = key then i
      else
        putIndexAux c key rest
          (if (c.entries i).age > (c.entries oldest).age then i else oldest)

def putIndex (c : PredictionCacheChunk) (key : ℕ) : Fin 8 :=
  putIndexAux c key (List.finRange 8) 0

/-- `PredictionCacheChunk::Put`.  Returns the updated chunk together with
`evicted`: whether the chosen slot previously held a (nonzero) key, which
the original increments `_evictionCount` (else `_entryCount`) with. -/
def Put (c : PredictionCacheChunk) (key : ℕ) (value : ℚ) (moveCount : ℕ)
    (priors : ℕ → ℚ) : PredictionCacheChunk × Bool :=
  let oldestIndex := putIndex c key
  let old := c.entries oldestIndex
  let newPriors : ℕ → ℕ := fun m =>
    if m < moveCount then INetwork.QuantizeProbabilityNoZero (priors m)
    else if moveCount < MaxMoveCount ∧ m = moveCount then
      INetwork.QuantizeProbabilityNoZero 1
    else old.policyPriors m
  (⟨Function.update c.entries oldestIndex
      { key := key, value := value, age := intMin, policyPriors := newPriors }⟩,
   old.key ≠ 0)

end PredictionCacheChunk

/-! ## Lemmas about the chunk scan loops -/

namespace PredictionCacheChunk

theorem firstMatchAux_none_iff (c : PredictionCacheChunk) (key : ℕ)
    (l : List (Fin 8)) :
    firstMatchAux c key l = none ↔ ∀ i ∈ l, (c.entries i).key ≠ key := by
  induction l with
  | nil => simp [firstMatchAux]
  | cons i rest ih =>
      by_cases h : (c.entries i).key = key
      · simp [firstMatchAux, h]
      · simp [firstMatchAux, h, ih]

theorem putIndexAux_of_firstMatch (c : PredictionCacheChunk) (key : ℕ)
    (l : List (Fin 8)) (j : Fin 8)
    (h : firstMatchAux c key l = some j) :
    ∀ b, putIndexAux c key l b = j := by
  induction l with
  | nil => simp [firstMatchAux] at h
  | cons i rest ih =>
      intro b
      by_cases hk : (c.entries i).key = key
      · simp [firstMatchAux, hk] at h
        subst h
        simp [putIndexAux, hk]
      · simp [firstMatchAux, hk] at h
        simp [putIndexAux, hk, ih h]

theorem firstMatchAux_update_some (c c' : PredictionCacheChunk) (key : ℕ)
    (l : List (Fin 8)) (j : Fin 8)
    (h : firstMatchAux c key l = some j)
    (hsame : ∀ i, i ≠ j → (c'.entries i).key = (c.entries i).key)
    (hj : (c'.entries j).key = key) :
    firstMatchAux c' key l = some j := by
  induction l with
  | nil => simp [firstMatchAux] at h
  | cons i rest ih =>
      by_cases hij : i = j
      · subst hij
        simp [firstMatchAux, hj]
      · have hk' : (c'.entries i).key = (c.entries i).key := hsame i hij
        by_cases hk : (c.entries i).key = key
        · simp [firstMatchAux, hk] at h
          exact absurd h hij
        · simp [firstMatchAux, hk] at h
          simp [firstMatchAux, hk', hk, ih h]

theorem firstMatchAux_update_none (c c' : PredictionCacheChunk) (key : ℕ)
    (l : List (Fin 8)) (j : Fin 8)
    (h : firstMatchAux c key l = none)
    (hmem : j ∈ l)
    (hsame : ∀ i, i ≠ j → (c'.entries i).key = (c.entries i).key)
    (hj : (c'.entries j).key = key) :
    firstMatchAux c' key l = some j := by
  induction l with
  | nil => simp at hmem
  | cons i rest ih =>
      by_cases hij : i = j
      · subst hij
        simp [firstMatchAux, hj]
      · have hcons := (firstMatchAux_none_iff c key (i :: rest)).mp h
        have hrest : firstMatchAux c key rest = none :=
          (firstMatchAux_none_iff c key rest).mpr
            (fun a ha => hcons a (List.mem_cons_of_mem _ ha))
        have hmem' : j ∈ rest := by
          rcases List.mem_cons.mp hmem with hh | hh
          · exact absurd hh.symm hij
          · exact hh
        have hk : (c.entries i).key ≠ key := hcons i (List.mem_cons_self _ _)
        have hk' : (c'.entries i).key ≠ key := by
          rw [hsame i hij]; exact hk
        simp [firstMatchAux, hk', ih hrest hmem']

theorem firstMatchAux_congr_keys (c c' : PredictionCacheChunk) (key : ℕ)
    (l : List (Fin 8))
    (h : ∀ i, (c'.entries i).key = (c.entries i).key) :
    firstMatchAux c' key l = firstMatchAux c key l := by
  induction l with
  | nil => rfl
  | cons i rest ih => simp only [firstMatchAux, h i, ih]

/-- After `Put c key …`, the first key-matching entry of the resulting
chunk is exactly the slot `Put` wrote. -/
theorem firstMatch_Put (c : PredictionCacheChunk) (key : ℕ) (v : ℚ)
    (n : ℕ) (p : ℕ → ℚ) :
    firstMatch (Put c key v n p).1 key = some (putIndex c key) := by
  set j := putIndex c key with hj
  have hupdate : ∀ i, i ≠ j →
      (((Put c key v n p).1).entries i).key = (c.entries i).key := by
    intro i hij
    simp [Put, Function.update_noteq hij, hj]
  have hkeyj : (((Put c key v n p).1).entries j).key = key := by
    simp [Put, hj]
  cases h : firstMatch c key with
  | some j0 =>
      have : putIndexAux c key (List.finRange 8) 0 = j0 :=
        putIndexAux_of_firstMatch c key _ j0 h 0
      have hj0 : j = j0 := by rw [hj, putIndex, this]
      subst hj0
      exact firstMatchAux_update_some c _ key _ j h hupdate hkeyj
  | none =>
      exact firstMatchAux_update_none c _ key _ j h (List.mem_finRange j)
        hupdate hkeyj

end PredictionCacheChunk

namespace INetwork

theorem quantize_one : QuantizeProbabilityNoZero 1 = 65535 := by
  norm_num [QuantizeProbabilityNoZero, round_eq]
  norm_num [show Int.toNat 65535 = 65535 from rfl]

/-- Round-trip accuracy of a single prior: within one quantum. -/
theorem dequantize_quantize_close (p : ℚ) (hp : 0 ≤ p) :
    |DequantizeProbabilityNoZero (QuantizeProbabilityNoZero p) - p| ≤ 1 / 65535 := by
  have h65 : (0 : ℚ) < 65535 := by norm_num
  have heq : DequantizeProbabilityNoZero (QuantizeProbabilityNoZero p) - p =
      ((QuantizeProbabilityNoZero p : ℚ) - p * 65535) / 65535 := by
    unfold DequantizeProbabilityNoZero
    field_simp
    ring
  rw [heq, abs_div, abs_of_pos h65]
  exact (div_le_div_iff_of_pos_right h65).mpr (quantize_close p hp)

end INetwork

namespace PredictionCacheChunk

/-- The quantised prior sum of an entry freshly written by `Put` with
priors that are nonnegative and sum to 1 stays within the 120-quanta
sum-guard allowance (the drift is at most one quantum per move,
`moveCount ≤ 56 ≤ 120`). -/
theorem quantSum_bounds (n : ℕ) (p : ℕ → ℚ) (hn : n ≤ 56)
    (hpos : ∀ m < n, 0 ≤ p m)
    (hsum : ∑ m ∈ Finset.range n, p m = 1) :
    65415 ≤ (∑ m ∈ Finset.range n, INetwork.QuantizeProbabilityNoZero (p m)) ∧
    (∑ m ∈ Finset.range n, INetwork.QuantizeProbabilityNoZero (p m)) ≤ 65655 := by
  set S : ℕ := ∑ m ∈ Finset.range n, INetwork.QuantizeProbabilityNoZero (p m)
    with hS
  have habs : |(S : ℚ) - 65535| ≤ (n : ℚ) := by
    have hcast : (S : ℚ) =
        ∑ m ∈ Finset.range n, (INetwork.QuantizeProbabilityNoZero (p m) : ℚ) := by
      rw [hS]; push_cast; ring
    have hscale : (∑ m ∈ Finset.range n, p m * 65535) = 65535 := by
      rw [← Finset.sum_mul, hsum, one_mul]
    have hsplit : (S : ℚ) - 65535 =
        ∑ m ∈ Finset.range n,
          ((INetwork.QuantizeProbabilityNoZero (p m) : ℚ) - p m * 65535) := by
      rw [Finset.sum_sub_distrib, ← hcast, hscale]
    rw [hsplit]
    calc |∑ m ∈ Finset.range n,
            ((INetwork.QuantizeProbabilityNoZero (p m) : ℚ) - p m * 65535)|
        ≤ ∑ m ∈ Finset.range n,
            |(INetwork.QuantizeProbabilityNoZero (p m) : ℚ) - p m * 65535| :=
          Finset.abs_sum_le_sum_abs _ _
      _ ≤ ∑ _m ∈ Finset.range n, (1 : ℚ) := by
          apply Finset.sum_le_sum
          intro m hm
          exact INetwork.quantize_close (p m) (hpos m (Finset.mem_range.mp hm))
      _ = (n : ℚ) := by simp
  have hup : (S : ℚ) ≤ 65535 + n := by linarith [abs_le.mp habs]
  have hdown : (65535 : ℚ) - n ≤ S := by linarith [abs_le.mp habs]
  have hnq : (n : ℚ) ≤ 56 := by exact_mod_cast hn
  constructor
  · have : (65479 : ℚ) ≤ (S : ℚ) := by linarith
    have : (65479 : ℕ) ≤ S := by exact_mod_cast this
    omega
  · have : (S : ℚ) ≤ 65591 := by linarith
    have : S ≤ (65591 : ℕ) := by exact_mod_cast this
    omega

end PredictionCacheChunk

namespace PredictionCacheChunk

/-- Unfolding lemma: a probe whose key matches no entry returns the aged
chunk and a miss. -/
theorem TryGet_of_firstMatch_none (c : PredictionCacheChunk) (key mc : ℕ)
    (h : (AgeAll c).firstMatch key = none) :
    TryGet c key mc = (AgeAll c, none) := by
  unfold TryGet
  rw [h]

/-- Unfolding lemma: a probe whose first key match is entry `j` either
freshens `j` and hits, or (failing the sum guard) leaves the ages as
incremented and misses. -/
theorem TryGet_of_firstMatch_some (c : PredictionCacheChunk) (key mc : ℕ)
    (j : Fin 8) (h : (AgeAll c).firstMatch key = some j) :
    TryGet c key mc =
      (if sumCheckOk ((AgeAll c).entries j) mc then
        (⟨Function.update (AgeAll c).entries j
            { (AgeAll c).entries j with age := intMin }⟩,
         some (((AgeAll c).entries j).value,
           (List.range mc).map
             (fun m => INetwork.DequantizeProbabilityNoZero
               (((AgeAll c).entries j).policyPriors m))))
      else (AgeAll c, none)) := by
  unfold TryGet
  rw [h]

/-- Keys are untouched by aging. -/
theorem AgeAll_key (c : PredictionCacheChunk) (i : Fin 8) :
    ((AgeAll c).entries i).key = (c.entries i).key := rfl

/-- Aging commutes with probing as far as the first key match goes. -/
theorem firstMatch_AgeAll (c : PredictionCacheChunk) (key : ℕ) :
    (AgeAll c).firstMatch key = c.firstMatch key :=
  firstMatchAux_congr_keys c (AgeAll c) key _ (fun i => rfl)

end PredictionCacheChunk

/-- C1.  Single-threaded cache round-trip: for any chunk, key `K`, value
`v`, move count `n ≤ 56` and nonnegative priors summing to 1, probing the
chunk immediately after `PredictionCacheChunk::Put(K, v, n, priors)`
with the same key and move count hits, returning exactly the stored value
and the dequantised stored priors, each within one quantum
(`1/65535`) of the original prior; and a probe with a different key `K'`
that matches no entry of the chunk misses. -/
theorem cache_singleThread_roundTrip
    (c : PredictionCacheChunk) (K Kp : ℕ) (v : ℚ) (n np : ℕ) (p : ℕ → ℚ)
    (hn : n ≤ MaxMoveCount)
    (hpos : ∀ m < n, 0 ≤ p m)
    (hsum : ∑ m ∈ Finset.range n, p m = 1)
    (hKp : Kp ≠ K)
    (hmiss : ∀ i, (((c.Put K v n p).1).entries i).key ≠ Kp) :
    (((c.Put K v n p).1).TryGet K n).2 =
      some (v, (List.range n).map (fun m =>
        INetwork.DequantizeProbabilityNoZero
          (INetwork.QuantizeProbabilityNoZero (p m)))) ∧
    (∀ m < n,
      |INetwork.DequantizeProbabilityNoZero
          (INetwork.QuantizeProbabilityNoZero (p m)) - p m| ≤ 1 / 65535) ∧
    (((c.Put K v n p).1).TryGet Kp np).2 = none := by
  classical
  set c' := (c.Put K v n p).1 with hc'
  set j := c.putIndex K with hjdef
  have hentryj : c'.entries j =
      { key := K, value := v, age := intMin,
        policyPriors := fun m =>
          if m < n then INetwork.QuantizeProbabilityNoZero (p m)
          else if n < MaxMoveCount ∧ m = n then
            INetwork.QuantizeProbabilityNoZero 1
          else ((c.entries j).policyPriors m) } := by
    rw [hc']
    simp [PredictionCacheChunk.Put, hjdef]
  have hfm : (PredictionCacheChunk.AgeAll c').firstMatch K = some j := by
    rw [PredictionCacheChunk.firstMatch_AgeAll, hc', hjdef]
    exact PredictionCacheChunk.firstMatch_Put c K v n p
  have hagedj : (PredictionCacheChunk.AgeAll c').entries j =
      { c'.entries j with age := (c'.entries j).age + 1 } := rfl
  have hsumS := PredictionCacheChunk.quantSum_bounds n p hn hpos hsum
  have hpriorSum :
      PredictionCacheChunk.priorSum ((PredictionCacheChunk.AgeAll c').entries j) n =
        ∑ m ∈ Finset.range n, INetwork.QuantizeProbabilityNoZero (p m) := by
    rw [hagedj]
    unfold PredictionCacheChunk.priorSum
    apply Finset.sum_congr rfl
    intro m hm
    simp [hentryj, Finset.mem_range.mp hm]
  have hcheck : PredictionCacheChunk.sumCheckOk
      ((PredictionCacheChunk.AgeAll c').entries j) n := by
    unfold PredictionCacheChunk.sumCheckOk
    rw [hpriorSum, INetwork.quantize_one]
    omega
  refine ⟨?_, ?_, ?_⟩
  · rw [PredictionCacheChunk.TryGet_of_firstMatch_some c' K n j hfm,
      if_pos hcheck]
    have hval : ((PredictionCacheChunk.AgeAll c').entries j).value = v := by
      have hv0 : ((PredictionCacheChunk.AgeAll c').entries j).value =
          (c'.entries j).value := rfl
      rw [hv0, hentryj]
    have hpp : ∀ m, m < n →
        ((PredictionCacheChunk.AgeAll c').entries j).policyPriors m =
          INetwork.QuantizeProbabilityNoZero (p m) := by
      intro m hm
      have hp0 : ((PredictionCacheChunk.AgeAll c').entries j).policyPriors =
          (c'.entries j).policyPriors := rfl
      rw [hp0, hentryj]
      simp [hm]
    simp only [Option.some.injEq, Prod.mk.injEq]
    refine ⟨hval, ?_⟩
    apply List.map_congr_left
    intro m hm
    rw [hpp m (List.mem_range.mp hm)]
  · intro m hm
    exact INetwork.dequantize_quantize_close (p m) (hpos m hm)
  · have hfmK' : (PredictionCacheChunk.AgeAll c').firstMatch Kp = none := by
      rw [PredictionCacheChunk.firstMatch_AgeAll]
      exact (PredictionCacheChunk.firstMatchAux_none_iff c' Kp _).mpr
        (fun i _ => hmiss i)
    rw [PredictionCacheChunk.TryGet_of_firstMatch_none c' Kp np hfmK']

/-! ## Concrete witness data for the cache theorems -/

/-- An empty chunk: all keys and ages zero (as produced by `Clear`). -/
def wChunk0 : PredictionCacheChunk := ⟨fun _ => ⟨0, 0, 0, fun _ => 0⟩⟩

/-- The spec's example prior vector `[0.2, 0.3, 0.5]`. -/
def wPriors : ℕ → ℚ := fun m =>
  if m = 0 then 1/5 else if m = 1 then 3/10 else if m = 2 then 1/2 else 0

/-- A chunk whose entry 0 holds key 5 with an all-zero prior block
(so its prior sum fails the sum guard). -/
def wChunkBad : PredictionCacheChunk :=
  ⟨fun i => if i = 0 then ⟨5, 0, 0, fun _ => 0⟩ else ⟨0, 0, 0, fun _ => 0⟩⟩

set_option maxRecDepth 10000 in
theorem cache_singleThread_roundTrip_witness :
    ((wChunk0.Put 5 (7/10) 3 wPriors).1.TryGet 5 3).2 =
      some (7/10, (List.range 3).map (fun m =>
        INetwork.DequantizeProbabilityNoZero
          (INetwork.QuantizeProbabilityNoZero (wPriors m)))) ∧
    ((wChunk0.Put 5 (7/10) 3 wPriors).1.TryGet 9 4).2 = none := by
  have h := cache_singleThread_roundTrip wChunk0 5 9 (7/10) 3 4 wPriors
    (by decide)
    (by intro m hm; interval_cases m <;> norm_num [wPriors])
    (by norm_num [wPriors, Finset.sum_range_succ])
    (by decide)
    (by decide)
  exact ⟨h.1, h.2.2⟩

/-- C2.  Cache sum-guard invariant: every `Put` with `moveCount < 56`
writes the guard quantum `Q(1.0)` at `priors[moveCount]` of the written
slot; and for any probe whose first key match is entry `j`, acceptance
implies the stored quantised prior sum over the probing move count is
within 120 quanta of `Q(1.0)`, while a matching entry failing that
tolerance is rejected as a miss. -/
theorem cache_sumGuard
    (c : PredictionCacheChunk) (K : ℕ) (v : ℚ) (n : ℕ) (p : ℕ → ℚ)
    (hn : n < MaxMoveCount)
    (c₂ : PredictionCacheChunk) (key mc : ℕ) (j : Fin 8)
    (hm : (PredictionCacheChunk.AgeAll c₂).firstMatch key = some j) :
    ((((c.Put K v n p).1).entries (c.putIndex K)).policyPriors n =
      INetwork.QuantizeProbabilityNoZero 1) ∧
    ((c₂.TryGet key mc).2.isSome →
      65415 ≤ PredictionCacheChunk.priorSum (c₂.entries j) mc ∧
      PredictionCacheChunk.priorSum (c₂.entries j) mc ≤ 65655) ∧
    (¬ PredictionCacheChunk.sumCheckOk (c₂.entries j) mc →
      (c₂.TryGet key mc).2 = none) := by
  have hps : PredictionCacheChunk.priorSum
      ((PredictionCacheChunk.AgeAll c₂).entries j) mc =
      PredictionCacheChunk.priorSum (c₂.entries j) mc := rfl
  have hcheckIff : PredictionCacheChunk.sumCheckOk
      ((PredictionCacheChunk.AgeAll c₂).entries j) mc ↔
      PredictionCacheChunk.sumCheckOk (c₂.entries j) mc := Iff.rfl
  refine ⟨?_, ?_, ?_⟩
  · simp [PredictionCacheChunk.Put, hn, Nat.lt_irrefl]
  · intro hsome
    rw [PredictionCacheChunk.TryGet_of_firstMatch_some c₂ key mc j hm] at hsome
    by_cases hok : PredictionCacheChunk.sumCheckOk (c₂.entries j) mc
    · have h2 := hok
      unfold PredictionCacheChunk.sumCheckOk at h2
      simp only [INetwork.quantize_one] at h2
      omega
    · rw [if_neg (by rw [hcheckIff]; exact hok)] at hsome
      simp at hsome
  · intro hok
    rw [PredictionCacheChunk.TryGet_of_firstMatch_some c₂ key mc j hm,
      if_neg (by rw [hcheckIff]; exact hok)]

theorem wChunkBad_not_sumCheck :
    ¬ PredictionCacheChunk.sumCheckOk (wChunkBad.entries 0) 3 := by
  unfold PredictionCacheChunk.sumCheckOk
  simp only [INetwork.quantize_one]
  have h0 : PredictionCacheChunk.priorSum (wChunkBad.entries 0) 3 = 0 := rfl
  rw [h0]
  decide

set_option maxRecDepth 10000 in
theorem cache_sumGuard_witness :
    (((wChunk0.Put 5 (7/10) 3 wPriors).1).entries (wChunk0.putIndex 5)).policyPriors 3 =
      INetwork.QuantizeProbabilityNoZero 1 ∧
    (wChunkBad.TryGet 5 3).2 = none := by
  have h := cache_sumGuard wChunk0 5 (7/10) 3 wPriors (by decide)
    wChunkBad 5 3 0 (by decide)
  exact ⟨h.1, h.2.2 wChunkBad_not_sumCheck⟩

/-- C8.  Probe aging: `TryGet` first increments every entry's age by 1;
on an accepted probe the matched entry's age is then set to `INT_MIN`
while all others keep the single increment; on a miss (no key match, or
sum-guard reject) every entry's age is exactly the increment — in
particular no entry is freshened, so spliced or colliding entries keep
aging toward eviction. -/
theorem cache_probe_aging (c : PredictionCacheChunk) (key mc : ℕ) :
    ((c.TryGet key mc).2 = none →
      ∀ i, (((c.TryGet key mc).1).entries i).age = (c.entries i).age + 1) ∧
    (∀ hit, (c.TryGet key mc).2 = some hit →
      ∃ j, (PredictionCacheChunk.AgeAll c).firstMatch key = some j ∧
        (((c.TryGet key mc).1).entries j).age = intMin ∧
        ∀ i, i ≠ j → (((c.TryGet key mc).1).entries i).age =
          (c.entries i).age + 1) := by
  cases hm : (PredictionCacheChunk.AgeAll c).firstMatch key with
  | none =>
      rw [PredictionCacheChunk.TryGet_of_firstMatch_none c key mc hm]
      exact ⟨fun _ i => rfl, fun hit hcontra => by simp at hcontra⟩
  | some j =>
      rw [PredictionCacheChunk.TryGet_of_firstMatch_some c key mc j hm]
      by_cases hok : PredictionCacheChunk.sumCheckOk
        ((PredictionCacheChunk.AgeAll c).entries j) mc
      · rw [if_pos hok]
        constructor
        · intro hcontra
          simp at hcontra
        · intro hit _
          refine ⟨j, rfl, ?_, ?_⟩
          · simp [Function.update_same]
          · intro i hij
            simp [Function.update_noteq hij]
            rfl
      · rw [if_neg hok]
        exact ⟨fun _ i => rfl, fun hit hcontra => by simp at hcontra⟩

set_option maxRecDepth 10000 in
theorem wChunkBad_tryGet_miss : (wChunkBad.TryGet 5 3).2 = none := by
  rw [PredictionCacheChunk.TryGet_of_firstMatch_some wChunkBad 5 3 0 (by decide)]
  rw [if_neg (show ¬ PredictionCacheChunk.sumCheckOk
    ((PredictionCacheChunk.AgeAll wChunkBad).entries 0) 3 from
    fun h => wChunkBad_not_sumCheck h)]

theorem cache_probe_aging_witness :
    (((wChunkBad.TryGet 5 3).1).entries 0).age = (wChunkBad.entries 0).age + 1 :=
  (cache_probe_aging wChunkBad 5 3).1 wChunkBad_tryGet_miss 0

/-! ## PredictionCache (the table-level singleton)

The cache state bundles the fields of the `PredictionCache` class.  A
table is modelled as `ℕ → PredictionCacheChunk` (a contiguous array of
`chunksPerTable` chunks, only indices below `chunksPerTable` are
touched).  The external `LargePageAllocator` is abstracted as an oracle
`alloc tableSizeBytes i : Bool` saying whether the i-th table allocation
of that size succeeds. -/

/-- `PredictionCache::MaxTableCount = (1 << 8)`. -/
def MaxTableCount : ℕ := 1 <<< 8

/-- `PredictionCache::MaxChunksPerTable = (1 << 20)`. -/
def MaxChunksPerTable : ℕ := 1 <<< 20

/-- A freshly allocated chunk.  On Windows `VirtualAlloc` zero-fills; on
Linux `TryAllocate` runs `Clear()`, which zeroes keys and ages (the value
and prior bytes are then semantically irrelevant because a zero key means
empty); modelled as fully zeroed. -/
def zeroChunk : PredictionCacheChunk := ⟨fun _ => ⟨0, 0, 0, fun _ => 0⟩⟩

structure PredictionCache where
  allocatedRequestGib : ℤ
  allocatedMinGib : ℤ
  tables : List (ℕ → PredictionCacheChunk)
  chunksPerTable : ℕ
  hitCount : ℕ
  evictionCount : ℕ
  probeCount : ℕ
  entryCount : ℕ
  entryCapacity : ℕ

/-- The three possible outcomes of `PredictionCache::TryGetPrediction`:
a hit populates `valueOut`/`priorsOut`; a miss populates `chunkOut` with
the chunk to `Put` into; an early miss (unallocated cache) populates
nothing. -/
inductive ProbeResult where
  | hit (value : ℚ) (priors : List ℚ)
  | missStore (tableIndex chunkIndex : ℕ)
  | missNoStore
deriving DecidableEq

namespace PredictionCache

/-- `PredictionCache::Free`. -/
def Free (st : PredictionCache) : PredictionCache :=
  { st with
    allocatedRequestGib := 0
    allocatedMinGib := 0
    tables := []
    chunksPerTable := 0
    hitCount := 0
    evictionCount := 0
    probeCount := 0
    entryCount := 0
    entryCapacity := 0 }

/-- `PredictionCache::TryGetPrediction`.  Addressing: up to 16 high key
bits xor-folded to 8 choose the table; up to 48 low bits xor-folded to
20 choose the chunk; then the chunk probe runs (aging the chunk in
place). -/
def TryGetPrediction (st : PredictionCache) (key : ℕ) (moveCount : ℕ) :
    PredictionCache × ProbeResult :=
  if st.tables.isEmpty then
    (st, ProbeResult.missNoStore)
  else
    let st₁ := { st with probeCount := st.probeCount + 1 }
    let tableKey := key >>> 48
    let tableKeyXor := (tableKey &&& 0xFF) ^^^ (tableKey >>> 8)
    let tableIndex := tableKeyXor % st.tables.length
    let table := st.tables.getD tableIndex (fun _ => zeroChunk)
    let chunkKey := key &&& 0xFFFFFFFFFFFF
    let chunkKeyXor := (chunkKey &&& 0xFFFFF) ^^^ (chunkKey >>> 20)
    let chunkIndex := chunkKeyXor % st.chunksPerTable
    let probe := (table chunkIndex).TryGet key moveCount
    let newTables := st₁.tables.set tableIndex
      (fun i => if i = chunkIndex then probe.1 else table i)
    match probe.2 with
    | some (v, priors) =>
        ({ st₁ with tables := newTables, hitCount := st₁.hitCount + 1 },
         ProbeResult.hit v priors)
    | none =>
        ({ st₁ with tables := newTables },
         ProbeResult.missStore tableIndex chunkIndex)

/-- `PredictionCache::TryAllocate` parameterised by the allocator
oracle: succeeds iff all `tableCount` table allocations succeed, in which
case the tables are installed zero-filled and the capacity recorded; on
a partial failure everything is freed again (`none`). -/
def TryAllocate (alloc : ℕ → ℕ → Bool) (st : PredictionCache)
    (tableSizeBytes tableCount chunksPerTable : ℕ) :
    Option PredictionCache :=
  if ∀ i < tableCount, alloc tableSizeBytes i = true then
    some { st with
      tables := List.replicate tableCount (fun _ => zeroChunk)
      chunksPerTable := chunksPerTable
      entryCapacity := tableCount * chunksPerTable * EntryCount }
  else
    none

/-- The walk-down loop of `PredictionCache::Allocate`: try 1 GiB table
allocations (`MaxChunksPerTable` chunks), halving the table size while
the table count stays within `MaxTableCount`; on exhausting table sizes
halve the request (down to `minGib`) and restart the table-size walk;
fail with the fragmentation error when even `minGib` is exhausted. -/
def AllocateLoop (alloc : ℕ → ℕ → Bool) (st : PredictionCache)
    (requestGib minGib : ℕ) :
    (sizeGib : ℕ) → (chunksPerTable : ℕ) → Except String PredictionCache :=
  fun sizeGib chunksPerTable =>
    if sizeGib * ((1 <<< 30) / (chunksPerTable * 1024)) > MaxTableCount then
      if hgt : sizeGib > minGib then
        AllocateLoop alloc st requestGib minGib (sizeGib / 2) MaxChunksPerTable
      else
        Except.error "Remaining memory is too fragmented to allocate prediction cache: close programs, reduce cache size or reboot"
    else
      match hta : TryAllocate alloc st (chunksPerTable * 1024)
        (sizeGib * ((1 <<< 30) / (chunksPerTable * 1024))) chunksPerTable with
      | some allocated =>
          Except.ok { allocated with
            allocatedRequestGib := requestGib
            allocatedMinGib := minGib }
      | none =>
          AllocateLoop alloc st requestGib minGib sizeGib (chunksPerTable / 2)
termination_by sizeGib chunksPerTable => (sizeGib, chunksPerTable)
decreasing_by
  · apply Prod.Lex.left
    omega
  · apply Prod.Lex.right
    have hcount : sizeGib * ((1 <<< 30) / (chunksPerTable * 1024)) ≠ 0 := by
      intro h0
      rw [TryAllocate, if_pos] at hta
      · exact Option.noConfusion hta
      · rw [h0]
        intro i hi
        exact absurd hi (Nat.not_lt_zero i)
    have hchunks : chunksPerTable ≠ 0 := by
      intro h0
      apply hcount
      rw [h0]
      simp
    omega

/-- The bit test `(x & (x - 1)) != 0` used by `Allocate` to reject
non-power-of-two (and non-zero) sizes. -/
def powTwoCheckFails (n : ℕ) : Prop := n &&& (n - 1) ≠ 0

instance (n : ℕ) : Decidable (powTwoCheckFails n) := by
  unfold powTwoCheckFails; infer_instance

/-- `PredictionCache::Allocate` over the allocator oracle.  Arguments are
C++ `int`s (`ℤ`); after forcing `requestGib ≥ minGib` the validations
run, then the idempotence check, then `Free` and the walk-down. -/
def Allocate (alloc : ℕ → ℕ → Bool) (st : PredictionCache)
    (requestGib0 minGib : ℤ) : Except String PredictionCache :=
  let requestGib := max requestGib0 minGib
  if minGib < 0 then
    Except.error "Negative size"
  else if requestGib > MaxTableCount ∨ minGib > MaxTableCount then
    Except.error "Maximum prediction cache size 256 GiB"
  else if powTwoCheckFails requestGib.toNat ∨ powTwoCheckFails minGib.toNat then
    Except.error "Prediction cache size must be a power-of-two GiB or zero"
  else if requestGib = st.allocatedRequestGib ∧ minGib = st.allocatedMinGib then
    Except.ok st
  else
    AllocateLoop alloc (Free st) requestGib.toNat minGib.toNat
      requestGib.toNat MaxChunksPerTable

end PredictionCache

/-- C9.  Probing an unallocated cache: with no allocated tables,
`TryGetPrediction` returns a miss immediately with no chunk reference
populated and the state (in particular `_probeCount`) untouched, so a
caller never receives a chunk to `Put` into while the cache is
unallocated. -/
theorem cache_unallocated_probe (st : PredictionCache) (key moveCount : ℕ)
    (h : st.tables = []) :
    st.TryGetPrediction key moveCount = (st, ProbeResult.missNoStore) := by
  unfold PredictionCache.TryGetPrediction
  rw [if_pos]
  rw [h]
  rfl

/-- An unallocated cache state (all fields as the constructor zeroes
them). -/
def wEmptyCache : PredictionCache := ⟨0, 0, [], 0, 0, 0, 0, 0, 0⟩

theorem cache_unallocated_probe_witness :
    wEmptyCache.TryGetPrediction 12345 20 = (wEmptyCache, ProbeResult.missNoStore) :=
  cache_unallocated_probe wEmptyCache 12345 20 rfl

/-! ## The declarative description of `Allocate`'s walk-down order -/

namespace PredictionCache

/-- The table-size walk for one request size: chunk counts from `ch`
halving down, stopping where the implied table count would exceed
`MaxTableCount`. -/
def chunkWalk (sizeGib : ℕ) : ℕ → List ℕ :=
  fun chunks =>
    if chunks = 0 then []
    else if sizeGib * ((1 <<< 30) / (chunks * 1024)) > MaxTableCount then []
    else chunks :: chunkWalk sizeGib (chunks / 2)
termination_by chunks => chunks
decreasing_by omega

/-- All `(sizeGib, chunksPerTable)` candidates `Allocate` will try, in
order, starting from a given point of the walk: finish the table-size
walk of the current request size, then halve the request (while above
`minGib`) and walk table sizes afresh from `MaxChunksPerTable`. -/
def candidatesFrom (minGib : ℕ) : (sizeGib : ℕ) → (chunks : ℕ) → List (ℕ × ℕ) :=
  fun sizeGib chunks =>
    (chunkWalk sizeGib chunks).map (fun c => (sizeGib, c)) ++
    (if sizeGib > minGib then candidatesFrom minGib (sizeGib / 2) MaxChunksPerTable
     else [])
termination_by sizeGib _ => sizeGib
decreasing_by omega

/-- The full candidate order for `Allocate(requestGib, minGib)`. -/
def candidates (requestGib minGib : ℕ) : List (ℕ × ℕ) :=
  candidatesFrom minGib requestGib MaxChunksPerTable

/-- A candidate succeeds when the allocator grants all of its table
allocations (the condition of `TryAllocate`). -/
def candOk (alloc : ℕ → ℕ → Bool) (cand : ℕ × ℕ) : Prop :=
  ∀ i < cand.1 * ((1 <<< 30) / (cand.2 * 1024)), alloc (cand.2 * 1024) i = true

instance (alloc : ℕ → ℕ → Bool) (cand : ℕ × ℕ) :
    Decidable (candOk alloc cand) := by
  unfold candOk; infer_instance

/-- The first successful candidate, if any. -/
def firstOk (alloc : ℕ → ℕ → Bool) : List (ℕ × ℕ) → Option (ℕ × ℕ)
  | [] => none
  | cand :: rest => if candOk alloc cand then some cand else firstOk alloc rest

/-- The state `Allocate` ends in when candidate `(g, ch)` is the one that
succeeds, starting from freed state `st`. -/
def allocSuccess (st : PredictionCache) (r m g ch : ℕ) : PredictionCache :=
  { st with
    tables := List.replicate (g * ((1 <<< 30) / (ch * 1024))) (fun _ => zeroChunk)
    chunksPerTable := ch
    entryCapacity := (g * ((1 <<< 30) / (ch * 1024))) * ch * EntryCount
    allocatedRequestGib := (r : ℤ)
    allocatedMinGib := (m : ℤ) }

end PredictionCache

namespace PredictionCache

/-- The walk-down loop is exactly "first success over the candidate
order": it returns the allocation of the first candidate the allocator
fully grants, and the fragmentation error when no candidate (down to
`minGib`) is granted. -/
theorem AllocateLoop_eq_firstOk (alloc : ℕ → ℕ → Bool) (st : PredictionCache)
    (r m : ℕ) :
    ∀ g ch, 1 ≤ ch →
      AllocateLoop alloc st r m g ch =
        (match firstOk alloc (candidatesFrom m g ch) with
        | some cand => Except.ok (allocSuccess st r m cand.1 cand.2)
        | none => Except.error "Remaining memory is too fragmented to allocate prediction cache: close programs, reduce cache size or reboot") := by
  intro g
  induction g using Nat.strong_induction_on with
  | _ g IHg =>
    intro ch
    induction ch using Nat.strong_induction_on with
    | _ ch IHch =>
      intro hch
      rw [AllocateLoop.eq_def]
      by_cases hlim : g * ((1 <<< 30) / (ch * 1024)) > MaxTableCount
      · rw [if_pos hlim]
        have hcw : chunkWalk g ch = [] := by
          rw [chunkWalk.eq_def]
          rw [if_neg (show ¬ ch = 0 by omega), if_pos hlim]
        by_cases hgt : g > m
        · rw [dif_pos hgt]
          rw [candidatesFrom.eq_def, hcw]
          simp only [List.map_nil, List.nil_append, if_pos hgt]
          exact IHg (g / 2) (by omega) MaxChunksPerTable (by decide)
        · rw [dif_neg hgt]
          rw [candidatesFrom.eq_def, hcw]
          simp only [List.map_nil, List.nil_append, if_neg hgt]
          rfl
      · rw [if_neg hlim]
        have hcw : chunkWalk g ch = ch :: chunkWalk g (ch / 2) := by
          rw [chunkWalk.eq_def]
          rw [if_neg (show ¬ ch = 0 by omega), if_neg hlim]
        rw [candidatesFrom.eq_def, hcw]
        simp only [List.map_cons, List.cons_append]
        split
        next allocated hta =>
          have hok : candOk alloc (g, ch) := by
            by_cases hcond : ∀ i < g * ((1 <<< 30) / (ch * 1024)),
                alloc (ch * 1024) i = true
            · exact hcond
            · unfold TryAllocate at hta
              rw [if_neg hcond] at hta
              exact Option.noConfusion hta
          have hval : allocated = { st with
              tables := List.replicate (g * ((1 <<< 30) / (ch * 1024)))
                (fun _ => zeroChunk)
              chunksPerTable := ch
              entryCapacity := (g * ((1 <<< 30) / (ch * 1024))) * ch * EntryCount } := by
            have hok2 : ∀ i < g * ((1 <<< 30) / (ch * 1024)),
                alloc (ch * 1024) i = true := hok
            unfold TryAllocate at hta
            rw [if_pos hok2] at hta
            exact (Option.some.inj hta).symm
          rw [show firstOk alloc ((g, ch) :: ((chunkWalk g (ch / 2)).map (fun c => (g, c)) ++
              (if g > m then candidatesFrom m (g / 2) MaxChunksPerTable else []))) =
              some (g, ch) from by rw [firstOk, if_pos hok]]
          rw [hval]
          rfl
        next hta =>
          have hnok : ¬ candOk alloc (g, ch) := by
            intro hok
            have hok2 : ∀ i < g * ((1 <<< 30) / (ch * 1024)),
                alloc (ch * 1024) i = true := hok
            unfold TryAllocate at hta
            rw [if_pos hok2] at hta
            exact Option.noConfusion hta
          rw [show firstOk alloc ((g, ch) :: ((chunkWalk g (ch / 2)).map (fun c => (g, c)) ++
              (if g > m then candidatesFrom m (g / 2) MaxChunksPerTable else []))) =
              firstOk alloc ((chunkWalk g (ch / 2)).map (fun c => (g, c)) ++
              (if g > m then candidatesFrom m (g / 2) MaxChunksPerTable else []))
              from by rw [firstOk, if_neg hnok]]
          have hch2 : 2 ≤ ch := by
            by_contra hlt
            have hch1 : ch = 1 := by omega
            subst hch1
            by_cases hcond : ∀ i < g * ((1 <<< 30) / (1 * 1024)),
                alloc (1 * 1024) i = true
            · unfold TryAllocate at hta
              rw [if_pos hcond] at hta
              exact Option.noConfusion hta
            · push_neg at hcond
              obtain ⟨i, hi, _⟩ := hcond
              have hconst : ((1 <<< 30) : ℕ) / (1 * 1024) = 1048576 := by decide
              rw [hconst] at hi
              have hg1 : 1 ≤ g := by
                by_contra hg0
                have : g = 0 := by omega
                subst this
                simp at hi
              have hbig : 1048576 ≤ g * 1048576 :=
                Nat.le_mul_of_pos_left _ (by omega)
              apply hlim
              have : g * ((1 <<< 30) / (1 * 1024)) = g * 1048576 := by
                rw [hconst]
              rw [this]
              have hmax : MaxTableCount = 256 := by decide
              omega
          have := IHch (ch / 2) (by omega) (by omega)
          rw [candidatesFrom.eq_def] at this
          exact this

end PredictionCache

namespace PredictionCache

theorem firstOk_eq_none_iff (alloc : ℕ → ℕ → Bool) (l : List (ℕ × ℕ)) :
    firstOk alloc l = none ↔ ∀ cand ∈ l, ¬ candOk alloc cand := by
  induction l with
  | nil => simp [firstOk]
  | cons cand rest ih =>
      by_cases h : candOk alloc cand
      · simp [firstOk, h]
      · simp [firstOk, h, ih]

end PredictionCache

/-- C6.  Allocation walk-down and failure condition.  Invalid arguments
(negative, over 256 GiB, or failing the power-of-two bit test) are
rejected with the corresponding `std::invalid_argument` message before
any allocation is attempted (the result does not depend on the allocator
oracle); for valid arguments not matching the current allocation, the
result is exactly the first success over the walk-down candidate order —
table sizes from 1 GiB (`MaxChunksPerTable` chunks) halving down while
the table count fits, then the request halving down towards `minGib` —
and the fragmentation error is raised if and only if every candidate
down to `minGib` fails. -/
theorem cache_allocate_walkdown
    (alloc : ℕ → ℕ → Bool) (st : PredictionCache) (requestGib0 minGib : ℤ) :
    (minGib < 0 →
      PredictionCache.Allocate alloc st requestGib0 minGib =
        Except.error "Negative size") ∧
    (0 ≤ minGib →
     (max requestGib0 minGib > (MaxTableCount : ℤ) ∨ minGib > (MaxTableCount : ℤ)) →
      PredictionCache.Allocate alloc st requestGib0 minGib =
        Except.error "Maximum prediction cache size 256 GiB") ∧
    (0 ≤ minGib →
     ¬(max requestGib0 minGib > (MaxTableCount : ℤ) ∨ minGib > (MaxTableCount : ℤ)) →
     (PredictionCache.powTwoCheckFails (max requestGib0 minGib).toNat ∨
      PredictionCache.powTwoCheckFails minGib.toNat) →
      PredictionCache.Allocate alloc st requestGib0 minGib =
        Except.error "Prediction cache size must be a power-of-two GiB or zero") ∧
    (0 ≤ minGib →
     ¬(max requestGib0 minGib > (MaxTableCount : ℤ) ∨ minGib > (MaxTableCount : ℤ)) →
     ¬(PredictionCache.powTwoCheckFails (max requestGib0 minGib).toNat ∨
       PredictionCache.powTwoCheckFails minGib.toNat) →
     ¬(max requestGib0 minGib = st.allocatedRequestGib ∧
       minGib = st.allocatedMinGib) →
      (PredictionCache.Allocate alloc st requestGib0 minGib =
        (match PredictionCache.firstOk alloc
            (PredictionCache.candidates (max requestGib0 minGib).toNat minGib.toNat) with
        | some cand => Except.ok (PredictionCache.allocSuccess st.Free
            (max requestGib0 minGib).toNat minGib.toNat cand.1 cand.2)
        | none => Except.error "Remaining memory is too fragmented to allocate prediction cache: close programs, reduce cache size or reboot")) ∧
      (PredictionCache.Allocate alloc st requestGib0 minGib =
        Except.error "Remaining memory is too fragmented to allocate prediction cache: close programs, reduce cache size or reboot" ↔
       ∀ cand ∈ PredictionCache.candidates (max requestGib0 minGib).toNat minGib.toNat,
         ¬ PredictionCache.candOk alloc cand)) := by
  refine ⟨?_, ?_, ?_, ?_⟩
  · intro hneg
    unfold PredictionCache.Allocate
    rw [if_pos hneg]
  · intro hneg hbig
    unfold PredictionCache.Allocate
    rw [if_neg (by omega), if_pos hbig]
  · intro hneg hbig hpow
    unfold PredictionCache.Allocate
    rw [if_neg (by omega), if_neg hbig, if_pos hpow]
  · intro hneg hbig hpow hdiff
    have halloc : PredictionCache.Allocate alloc st requestGib0 minGib =
        PredictionCache.AllocateLoop alloc st.Free
          (max requestGib0 minGib).toNat minGib.toNat
          (max requestGib0 minGib).toNat MaxChunksPerTable := by
      unfold PredictionCache.Allocate
      rw [if_neg (by omega), if_neg hbig, if_neg hpow, if_neg hdiff]
    have hloop := PredictionCache.AllocateLoop_eq_firstOk alloc st.Free
      (max requestGib0 minGib).toNat minGib.toNat
      (max requestGib0 minGib).toNat MaxChunksPerTable (by decide)
    constructor
    · rw [halloc, hloop]
      rfl
    · rw [halloc, hloop]
      rw [← PredictionCache.firstOk_eq_none_iff alloc _]
      cases hfo : PredictionCache.firstOk alloc
          (PredictionCache.candidates (max requestGib0 minGib).toNat minGib.toNat) with
      | none =>
          rw [show PredictionCache.candidatesFrom minGib.toNat
              (max requestGib0 minGib).toNat MaxChunksPerTable =
              PredictionCache.candidates (max requestGib0 minGib).toNat minGib.toNat
              from rfl, hfo]
          simp
      | some cand =>
          rw [show PredictionCache.candidatesFrom minGib.toNat
              (max requestGib0 minGib).toNat MaxChunksPerTable =
              PredictionCache.candidates (max requestGib0 minGib).toNat minGib.toNat
              from rfl, hfo]
          simp

/-- C10.  Allocate idempotence: calling `Allocate` with the same
(request, min) pair as the current successful allocation returns the
state unchanged — entries and metrics preserved, nothing freed; any
different pair first frees the existing allocation, so a successful
reallocation always comes back with zeroed metrics and all-empty
chunks. -/
theorem cache_allocate_idempotent
    (alloc : ℕ → ℕ → Bool) (st : PredictionCache) (requestGib0 minGib : ℤ)
    (hneg : 0 ≤ minGib)
    (hbig : ¬(max requestGib0 minGib > (MaxTableCount : ℤ) ∨
      minGib > (MaxTableCount : ℤ)))
    (hpow : ¬(PredictionCache.powTwoCheckFails (max requestGib0 minGib).toNat ∨
      PredictionCache.powTwoCheckFails minGib.toNat)) :
    ((max requestGib0 minGib = st.allocatedRequestGib ∧
      minGib = st.allocatedMinGib) →
      PredictionCache.Allocate alloc st requestGib0 minGib = Except.ok st) ∧
    (¬(max requestGib0 minGib = st.allocatedRequestGib ∧
       minGib = st.allocatedMinGib) →
      ∀ st2, PredictionCache.Allocate alloc st requestGib0 minGib = Except.ok st2 →
        st2.hitCount = 0 ∧ st2.probeCount = 0 ∧ st2.evictionCount = 0 ∧
        st2.entryCount = 0 ∧
        ∀ t ∈ st2.tables, ∀ i : ℕ, ∀ j : Fin 8, ((t i).entries j).key = 0) := by
  constructor
  · intro hsame
    unfold PredictionCache.Allocate
    rw [if_neg (by omega), if_neg hbig, if_neg hpow, if_pos hsame]
  · intro hdiff st2 hok
    have halloc : PredictionCache.Allocate alloc st requestGib0 minGib =
        PredictionCache.AllocateLoop alloc st.Free
          (max requestGib0 minGib).toNat minGib.toNat
          (max requestGib0 minGib).toNat MaxChunksPerTable := by
      unfold PredictionCache.Allocate
      rw [if_neg (by omega), if_neg hbig, if_neg hpow, if_neg hdiff]
    have hloop := PredictionCache.AllocateLoop_eq_firstOk alloc st.Free
      (max requestGib0 minGib).toNat minGib.toNat
      (max requestGib0 minGib).toNat MaxChunksPerTable (by decide)
    rw [halloc, hloop] at hok
    cases hfo : PredictionCache.firstOk alloc
        (PredictionCache.candidatesFrom minGib.toNat
          (max requestGib0 minGib).toNat MaxChunksPerTable) with
    | none =>
        rw [hfo] at hok
        exact Except.noConfusion hok
    | some cand =>
        rw [hfo] at hok
        have hst2 : st2 = PredictionCache.allocSuccess st.Free
            (max requestGib0 minGib).toNat minGib.toNat cand.1 cand.2 :=
          (Except.ok.inj hok).symm
        subst hst2
        refine ⟨rfl, rfl, rfl, rfl, ?_⟩
        intro t ht i j
        have : t = (fun _ => zeroChunk) := List.eq_of_mem_replicate ht
        rw [this]
        rfl

/-- A cache state recording a successful (1 GiB, 0 GiB) allocation. -/
def wAllocatedCache : PredictionCache := ⟨1, 0, [], 0, 0, 0, 0, 0, 0⟩

theorem cache_allocate_walkdown_witness :
    PredictionCache.Allocate (fun _ _ => true) wEmptyCache 1 0 =
      Except.ok (PredictionCache.allocSuccess wEmptyCache.Free 1 0 1 MaxChunksPerTable) := by
  have hmt : (MaxTableCount : ℤ) = 256 := by decide
  have h1 : (max (1 : ℤ) 0).toNat = 1 := by norm_num
  have hmain := ((cache_allocate_walkdown (fun _ _ => true) wEmptyCache 1 0).2.2.2
    (by norm_num)
    (by rw [hmt]; norm_num)
    (by rw [h1]; decide)
    (by
      intro hsame
      have := hsame.1
      norm_num [wEmptyCache] at this)).1
  rw [hmain, h1]
  rw [show ((0 : ℤ)).toNat = 0 from rfl]
  rw [show PredictionCache.candidates 1 0 =
    PredictionCache.candidatesFrom 0 1 MaxChunksPerTable from rfl]
  rw [PredictionCache.candidatesFrom.eq_def]
  rw [PredictionCache.chunkWalk.eq_def]
  rw [if_neg (show ¬ MaxChunksPerTable = 0 by decide)]
  rw [if_neg (show ¬ 1 * ((1 <<< 30) / (MaxChunksPerTable * 1024)) > MaxTableCount
    by decide)]
  simp only [List.map_cons, List.cons_append]
  rw [PredictionCache.firstOk]
  rw [if_pos (show PredictionCache.candOk (fun _ _ => true) (1, MaxChunksPerTable)
    from fun i _ => rfl)]

theorem cache_allocate_idempotent_witness :
    PredictionCache.Allocate (fun _ _ => true) wAllocatedCache 1 0 =
      Except.ok wAllocatedCache := by
  have hmt : (MaxTableCount : ℤ) = 256 := by decide
  have h1 : (max (1 : ℤ) 0).toNat = 1 := by norm_num
  exact (cache_allocate_idempotent (fun _ _ => true) wAllocatedCache 1 0
    (by norm_num)
    (by rw [hmt]; norm_num)
    (by rw [h1]; decide)).1
    ⟨by norm_num [wAllocatedCache], rfl⟩

/-! ## SelfPlay data model (SelfPlay.cpp, mature revision)

`TerminalValue` wraps an `int8_t` with a `NonTerminal` sentinel: 0 is a
draw, `+n` mate-in-n fullmoves for the winner, `-n` mate-in-n for the
loser.  The sentinel is modelled as a separate constructor (its numeric
value only serves to be distinct).  `int8_t` arithmetic is modelled on
`ℤ`; wrap-around would need proven mates deeper than 127 fullmoves and
is ignored.

Game.h is not among the provided sources, so the value constants are
modelled from the spec: values live in `[0, 1]` from the
parent-to-play's perspective, win 1, draw 1/2, loss 0, with the Syzygy
variants strictly inside the win/loss bounds. -/

/-- Modelled from the spec: the win value. -/
def CHESSCOACH_VALUE_WIN : ℚ := 1

/-- Modelled from the spec: the draw value. -/
def CHESSCOACH_VALUE_DRAW : ℚ := 1/2

/-- Modelled from the spec: the loss value. -/
def CHESSCOACH_VALUE_LOSS : ℚ := 0

/-- Modelled from the spec: tablebase-win score (inside the win bound). -/
def CHESSCOACH_VALUE_SYZYGY_WIN : ℚ := 99/100

/-- Modelled from the spec: tablebase-draw score. -/
def CHESSCOACH_VALUE_SYZYGY_DRAW : ℚ := 1/2

/-- Modelled from the spec: tablebase-loss score (inside the loss bound). -/
def CHESSCOACH_VALUE_SYZYGY_LOSS : ℚ := 1/100

inductive TerminalValue where
  | nonTerminal
  | terminal (value : ℤ)
deriving DecidableEq

namespace TerminalValue

/-- `TerminalValue::Draw()`. -/
def Draw : ℤ := 0

/-- `TerminalValue::MateIn(n)`: mate in `n` fullmoves. -/
def MateIn (n : ℤ) : ℤ := n

/-- `TerminalValue::OpponentMateIn(n)`: opponent mates in `n`
fullmoves. -/
def OpponentMateIn (n : ℤ) : ℤ := -n

def IsTerminal : TerminalValue → Bool
  | nonTerminal => false
  | terminal _ => true

/-- `TerminalValue::IsImmediate()`: a draw or a mate-in-one. -/
def IsImmediate : TerminalValue → Bool
  | nonTerminal => false
  | terminal v => v = Draw ∨ v = MateIn 1

/-- `TerminalValue::ImmediateValue()`: win for mate-in-one, draw
otherwise. -/
def ImmediateValue : TerminalValue → ℚ
  | terminal 1 => CHESSCOACH_VALUE_WIN
  | _ => CHESSCOACH_VALUE_DRAW

def IsMateInN : TerminalValue → Bool
  | nonTerminal => false
  | terminal v => v > 0

def IsOpponentMateInN : TerminalValue → Bool
  | nonTerminal => false
  | terminal v => v < 0

def MateN : TerminalValue → ℤ
  | nonTerminal => 0
  | terminal v => max 0 v

def OpponentMateN : TerminalValue → ℤ
  | nonTerminal => 0
  | terminal v => max 0 (-v)

def EitherMateN : TerminalValue → ℤ
  | nonTerminal => 0
  | terminal v => v

/-- `TerminalValue::MateScore(explorationRate)`: for `MateIn(m)` the
exploration rate times `1` (m = 1) or `1 / (1 << m)`; zero for
opponent mates, draws and non-terminals. -/
def MateScore (tv : TerminalValue) (explorationRate : ℚ) : ℚ :=
  let value := tv.EitherMateN
  if value > 0 then
    let mateTerm : ℚ := if value = 1 then 1 else 1 / ((2 : ℚ) ^ value.toNat)
    explorationRate * mateTerm
  else
    0

end TerminalValue

/-- Stockfish's `Bound` enum (`BOUND_NONE`, `BOUND_UPPER`,
`BOUND_LOWER`, `BOUND_EXACT`). -/
inductive Bound where
  | none
  | upper
  | lower
  | exact
deriving DecidableEq

def Bound.toInt : Bound → ℤ
  | .none => 0
  | .upper => 1
  | .lower => 2
  | .exact => 3

/-- `Node::GetBound(int16_t)`: the low two bits of the packed
rank/bound. -/
def boundOfPacked (packed : ℤ) : Bound :=
  if packed.emod 4 = 0 then Bound.none
  else if packed.emod 4 = 1 then Bound.upper
  else if packed.emod 4 = 2 then Bound.lower
  else Bound.exact

/-- `Expansion` state machine values. -/
inductive Expansion where
  | none
  | expanding
  | expanded
deriving DecidableEq

/-- The mature `Node` layout.  `children` (the owned child array) is
abstracted to `hasChildren` (`children != nullptr`) and `childCount`;
per-child data lives in the child nodes themselves. -/
structure Node where
  hasChildren : Bool
  childCount : ℕ
  move : ℕ
  quantizedPrior : ℕ
  tablebaseRankBound : ℤ
  visitCount : ℤ
  visitingCount : ℤ
  terminalValue : TerminalValue
  expansion : Expansion
  valueAverage : ℚ
  valueWeight : ℤ
deriving DecidableEq

namespace Node

def Prior (n : Node) : ℚ :=
  INetwork.DequantizeProbabilityNoZero n.quantizedPrior

def GetBound (n : Node) : Bound := boundOfPacked n.tablebaseRankBound

/-- `Node::TablebaseRank()`: arithmetic right shift by two of the packed
field (floor division by 4). -/
def TablebaseRank (n : Node) : ℤ := Int.ediv n.tablebaseRankBound 4

def BuildTablebaseRankBound (rank : ℤ) (bound : Bound) : ℤ :=
  rank * 4 + bound.toInt

/-- `Node::BoundScore(bound)`: terminal nodes score full win/draw/loss,
tablebase-bounded nodes the Syzygy variants.  `BOUND_NONE` is asserted
away in the source (it throws); modelled as 0, unreachable from the
call sites below. -/
def BoundScore (n : Node) (bound : Bound) : ℚ :=
  let isTerminal := n.terminalValue.IsTerminal
  match bound with
  | Bound.upper =>
      if isTerminal then CHESSCOACH_VALUE_LOSS else CHESSCOACH_VALUE_SYZYGY_LOSS
  | Bound.lower =>
      if isTerminal then CHESSCOACH_VALUE_WIN else CHESSCOACH_VALUE_SYZYGY_WIN
  | Bound.exact =>
      if isTerminal then CHESSCOACH_VALUE_DRAW else CHESSCOACH_VALUE_SYZYGY_DRAW
  | Bound.none => 0

/-- `Node::BoundedValue(value)`: clamp a value to the node's bound. -/
def BoundedValue (n : Node) (value : ℚ) : ℚ :=
  match n.GetBound with
  | Bound.none => value
  | Bound.upper => min (n.BoundScore Bound.upper) value
  | Bound.lower => max (n.BoundScore Bound.lower) value
  | Bound.exact => n.BoundScore Bound.exact

/-- `Node::ValueWithVirtualLoss()` (taking the configured
`VirtualLossCoefficient` as a parameter). -/
def ValueWithVirtualLoss (n : Node) (virtualLossCoefficient : ℚ) : ℚ :=
  if n.GetBound ≠ Bound.none then
    n.BoundScore n.GetBound
  else
    let virtualLossCount := (n.visitingCount : ℚ) * virtualLossCoefficient
    let weight := (n.valueWeight : ℚ)
    let safeWeight := max 1 weight
    n.valueAverage * safeWeight / (safeWeight + virtualLossCount)

/-- `Node::SetTablebaseRankBound(rank, bound)`: swap in the packed
rank/bound, rebase `valueAverage` on the bound, and on a fresh
`BOUND_UPPER` divide the prior by 1000. -/
def SetTablebaseRankBound (n : Node) (rank : ℤ) (bound : Bound) : Node :=
  let previousBound := n.GetBound
  let n₁ := { n with tablebaseRankBound := BuildTablebaseRankBound rank bound }
  let n₂ :=
    if n₁.valueWeight = 0 then { n₁ with valueAverage := n₁.BoundScore bound }
    else { n₁ with valueAverage := n₁.BoundedValue n₁.valueAverage }
  if previousBound ≠ Bound.upper ∧ bound = Bound.upper then
    { n₂ with quantizedPrior := n₂.quantizedPrior / 1000 }
  else
    n₂

/-- `Node::SetTerminalValue(value)`: store the terminal value, then set
a bound representing it (exact for draws, upper for opponent mates,
lower for mates) while keeping the existing tablebase rank. -/
def SetTerminalValue (n : Node) (value : TerminalValue) : Node :=
  let n₁ := { n with terminalValue := value }
  let eitherMateN := value.EitherMateN
  let bound :=
    if eitherMateN = 0 then Bound.exact
    else if eitherMateN < 0 then Bound.upper
    else Bound.lower
  n₁.SetTablebaseRankBound n₁.TablebaseRank bound

end Node

namespace PuctContext

/-- `PuctContext::CalculateAzPuctScore(child, childVirtualExploration)`.
The precomputed `_explorationNumerator`
(`(ln((N + base + 1)/base) + init)·√N`, transcendental) and the
configured `VirtualLossCoefficient` enter as parameters. -/
def CalculateAzPuctScore (explorationNumerator virtualLossCoefficient : ℚ)
    (child : Node) (childVirtualExploration : ℚ) : ℚ :=
  let explorationRate := explorationNumerator / (childVirtualExploration + 1)
  let priorScore := explorationRate * child.Prior
  let mateScore := child.terminalValue.MateScore explorationRate
  child.ValueWithVirtualLoss virtualLossCoefficient + priorScore + mateScore

end PuctContext

/-- C4 (counterexample).  The claim says the mate term for a `MateIn(m)`
child is `(E/(nʹ+1))·2^(−m)`; the code special-cases m = 1, where the
mate term is the full exploration rate: with exploration rate 1, the
mate term of a mate-in-one child is 1, but the claim predicts
`1 · 2^(−1) = 1/2`. -/
theorem azPuct_mateTerm_counterexample :
    (TerminalValue.terminal 1).MateScore 1 = 1 ∧
    ((1 : ℚ) * (1 / 2 ^ (1 : ℕ)) = 1 / 2) ∧ (1 : ℚ) ≠ 1 / 2 := by
  refine ⟨?_, by norm_num, by norm_num⟩
  norm_num [TerminalValue.MateScore, TerminalValue.EitherMateN]

/-- C4 (amended).  The AZ-PUCT score decomposes as
`Q_vl + (E/(nʹ+1))·prior + mateTerm`, where the mate term is
`(E/(nʹ+1))·2^(−m)` for a `MateIn(m)` child with m ≥ 2,
`(E/(nʹ+1))·1` for a mate-in-one child (the code's special case), and 0
for `OpponentMateIn`, draw and non-terminal children. -/
theorem azPuct_mateTerm (E vloss : ℚ) (child : Node) (cve : ℚ) :
    (PuctContext.CalculateAzPuctScore E vloss child cve =
      child.ValueWithVirtualLoss vloss + (E / (cve + 1)) * child.Prior +
      child.terminalValue.MateScore (E / (cve + 1))) ∧
    (∀ m : ℤ, 2 ≤ m → child.terminalValue = TerminalValue.terminal m →
      child.terminalValue.MateScore (E / (cve + 1)) =
        (E / (cve + 1)) * (1 / (2 : ℚ) ^ m.toNat)) ∧
    (child.terminalValue = TerminalValue.terminal 1 →
      child.terminalValue.MateScore (E / (cve + 1)) = (E / (cve + 1)) * 1) ∧
    (∀ m : ℤ, m ≤ 0 → child.terminalValue = TerminalValue.terminal m →
      child.terminalValue.MateScore (E / (cve + 1)) = 0) ∧
    (child.terminalValue = TerminalValue.nonTerminal →
      child.terminalValue.MateScore (E / (cve + 1)) = 0) := by
  refine ⟨rfl, ?_, ?_, ?_, ?_⟩
  · intro m hm htv
    rw [htv]
    simp only [TerminalValue.MateScore, TerminalValue.EitherMateN]
    rw [if_pos (show m > 0 by omega), if_neg (show ¬ m = 1 by omega)]
  · intro htv
    rw [htv]
    simp only [TerminalValue.MateScore, TerminalValue.EitherMateN]
    norm_num
  · intro m hm htv
    rw [htv]
    simp only [TerminalValue.MateScore, TerminalValue.EitherMateN]
    rw [if_neg (show ¬ m > 0 by omega)]
  · intro htv
    rw [htv]
    rfl

/-- A child node proved to be a mate in two. -/
def wMateChild : Node :=
  ⟨false, 0, 0, 0, 0, 0, 0, TerminalValue.terminal 2, Expansion.none, 0, 0⟩

theorem azPuct_mateTerm_witness :
    wMateChild.terminalValue.MateScore ((1 : ℚ) / (0 + 1)) =
      ((1 : ℚ) / (0 + 1)) * (1 / (2 : ℚ) ^ (2 : ℤ).toNat) :=
  (azPuct_mateTerm 1 0 wMateChild 0).2.1 2 (by norm_num) rfl

/-! ## Leaf evaluation: the terminal phase of `SelfPlayGame::ExpandAndEvaluate`

The chess-rules inputs (legal move count, check status, repetition
bookkeeping) come from the external `Position`; they are collected in a
context record.  The phase below embeds the `Working`-state prefix of
`ExpandAndEvaluate` up to and including the 2-repetition short-circuit;
`proceed` marks the continuation into expansion ownership, cache probe
and network evaluation, which the twofold branch provably never
reaches. -/

structure LeafContext where
  workingMoveCount : ℕ
  inCheck : Bool
  drawByNoProgressOrThreefold : Bool
  repetition : ℤ
  ply : ℤ
  searchRootPly : ℤ

inductive EEOutcome where
  | immediate (value : ℚ)
  | proceed
deriving DecidableEq

namespace SelfPlayGame

/-- `SelfPlayGame::IsDrawByTwofoldRepetition(plyToSearchRoot)`: the
position repeats once strictly after the search root
(`0 < repetition < plyToSearchRoot`; `> 0` also excludes the
3-repetition marker). -/
def IsDrawByTwofoldRepetition (repetition plyToSearchRoot : ℤ) : Prop :=
  repetition > 0 ∧ repetition < plyToSearchRoot

instance (repetition plyToSearchRoot : ℤ) :
    Decidable (IsDrawByTwofoldRepetition repetition plyToSearchRoot) := by
  unfold IsDrawByTwofoldRepetition; infer_instance

/-- The terminal phase of `SelfPlayGame::ExpandAndEvaluate`: immediate
terminal replay; checkmate/stalemate detection; threefold/no-progress
draws (cached on the node); and the 2-repetition short-circuit, which
returns a draw value while deliberately leaving the node untouched. -/
def ExpandAndEvaluate_terminalPhase (node : Node) (ctx : LeafContext) :
    Node × EEOutcome :=
  if node.terminalValue.IsImmediate then
    (node, EEOutcome.immediate node.terminalValue.ImmediateValue)
  else if ctx.workingMoveCount = 0 then
    let newTerminalValue :=
      if ctx.inCheck then TerminalValue.terminal (TerminalValue.MateIn 1)
      else TerminalValue.terminal TerminalValue.Draw
    (node.SetTerminalValue newTerminalValue,
     EEOutcome.immediate newTerminalValue.ImmediateValue)
  else if ctx.drawByNoProgressOrThreefold then
    (node.SetTerminalValue (TerminalValue.terminal TerminalValue.Draw),
     EEOutcome.immediate (TerminalValue.terminal TerminalValue.Draw).ImmediateValue)
  else if IsDrawByTwofoldRepetition ctx.repetition (ctx.ply - ctx.searchRootPly) then
    (node, EEOutcome.immediate (TerminalValue.terminal TerminalValue.Draw).ImmediateValue)
  else
    (node, EEOutcome.proceed)

end SelfPlayGame

/-- C5.  Twofold-repetition frame condition: when the leaf's position is
a twofold repetition strictly after the search root — and is not an
already-known terminal, not checkmate or stalemate (there are legal
moves) and not a threefold/50-move draw — `ExpandAndEvaluate` returns
the draw value while leaving the node entirely unchanged: the terminal
value stays non-terminal and expansion, children and child count are
untouched, so the node expands normally when reached after the search
root advances. -/
theorem twofold_repetition_frame (node : Node) (ctx : LeafContext)
    (hnt : node.terminalValue = TerminalValue.nonTerminal)
    (hmoves : ctx.workingMoveCount ≠ 0)
    (hthree : ctx.drawByNoProgressOrThreefold = false)
    (htwo : SelfPlayGame.IsDrawByTwofoldRepetition ctx.repetition
      (ctx.ply - ctx.searchRootPly)) :
    SelfPlayGame.ExpandAndEvaluate_terminalPhase node ctx =
      (node, EEOutcome.immediate CHESSCOACH_VALUE_DRAW) ∧
    (SelfPlayGame.ExpandAndEvaluate_terminalPhase node ctx).1.terminalValue =
      TerminalValue.nonTerminal ∧
    (SelfPlayGame.ExpandAndEvaluate_terminalPhase node ctx).1.expansion =
      node.expansion ∧
    (SelfPlayGame.ExpandAndEvaluate_terminalPhase node ctx).1.hasChildren =
      node.hasChildren ∧
    (SelfPlayGame.ExpandAndEvaluate_terminalPhase node ctx).1.childCount =
      node.childCount := by
  have himm : node.terminalValue.IsImmediate = false := by
    rw [hnt]; rfl
  have heq : SelfPlayGame.ExpandAndEvaluate_terminalPhase node ctx =
      (node, EEOutcome.immediate CHESSCOACH_VALUE_DRAW) := by
    unfold SelfPlayGame.ExpandAndEvaluate_terminalPhase
    rw [if_neg (by rw [himm]; exact Bool.false_ne_true)]
    rw [if_neg hmoves]
    rw [if_neg (by rw [hthree]; exact Bool.false_ne_true)]
    rw [if_pos htwo]
    rfl
  refine ⟨heq, ?_, ?_, ?_, ?_⟩ <;> rw [heq] <;> simp [hnt]

/-- A fresh non-terminal leaf node. -/
def wLeafNode : Node :=
  ⟨false, 0, 0, 0, 0, 0, 0, TerminalValue.nonTerminal, Expansion.none, 0, 0⟩

/-- A position with legal moves that repeats once, strictly after the
search root (2-repetition at distance 2, search root 6 plies back). -/
def wLeafCtx : LeafContext := ⟨5, false, false, 2, 10, 4⟩

theorem twofold_repetition_frame_witness :
    SelfPlayGame.ExpandAndEvaluate_terminalPhase wLeafNode wLeafCtx =
      (wLeafNode, EEOutcome.immediate CHESSCOACH_VALUE_DRAW) :=
  (twofold_repetition_frame wLeafNode wLeafCtx rfl (by decide) rfl
    (by constructor <;> decide)).1

/-! ## Search controller: `SelfPlayWorker::CheckTimeControl`

The check reads the UCI time control, a snapshot of the search (root,
best child, node count, elapsed milliseconds) and configuration; it
decides whether to stop (`workCoordinator->OnWorkItemCompleted()`) and
updates the elimination bookkeeping.  Times are `int64_t` (`ℤ`); the
elimination fraction is a float (`ℚ`). -/

structure TimeControlState where
  infinite : Bool
  pondering : Bool
  moveTimeMs : ℤ
  timeRemainingMs : ℤ
  incrementMs : ℤ
  movesToGo : ℤ
  nodes : ℤ
  mate : ℤ

structure SearchSnapshot where
  bestChild : Option Node
  rootTerminal : TerminalValue
  rootIsExpanded : Bool
  rootChildCount : ℕ
  rootVisitCount : ℤ
  nodeCount : ℤ
  searchTimeMs : ℤ

structure TimeControlConfig where
  fractionOfRemaining : ℤ
  absoluteMinimumMilliseconds : ℤ
  safetyBufferMoveMilliseconds : ℤ

structure TimeControlResult where
  stop : Bool
  eliminationFraction : ℚ
  eliminationRootVisitCount : ℤ
deriving DecidableEq

namespace SelfPlayWorker

/-- The elimination fraction as updated by the nodes and move-time
checks (reached only when neither stopped the search). -/
def CheckTimeControl.fraction2 (tc : TimeControlState) (s : SearchSnapshot)
    (fraction0 : ℚ) : ℚ :=
  if tc.moveTimeMs > 0 then (s.searchTimeMs : ℚ) / (tc.moveTimeMs : ℚ)
  else if tc.nodes > 0 then (s.nodeCount : ℚ) / (tc.nodes : ℚ)
  else fraction0

/-- The per-move time budget of the game-clock strategy: a fraction of
the increment-free remaining time plus the increment, at most the
remaining time minus the safety buffer, at least the configured absolute
minimum (and at least 1 ms). -/
def GameClockTimeAllowed (cfg : TimeControlConfig) (tc : TimeControlState) : ℤ :=
  max (max 1 cfg.absoluteMinimumMilliseconds)
    (min ((max 0 (tc.timeRemainingMs - tc.incrementMs)) /
        (if tc.movesToGo > 0 then min cfg.fractionOfRemaining tc.movesToGo
         else cfg.fractionOfRemaining) + tc.incrementMs)
      tc.timeRemainingMs -
     cfg.safetyBufferMoveMilliseconds)

/-- `SelfPlayWorker::CheckTimeControl`.  `fraction0`/`rootVisit0` are
the incoming `eliminationFraction`/`eliminationRootVisitCount`;
`stop = true` models the `workCoordinator->OnWorkItemCompleted()`
calls. -/
def CheckTimeControl (cfg : TimeControlConfig) (tc : TimeControlState)
    (s : SearchSnapshot) (fraction0 : ℚ) (rootVisit0 : ℤ) :
    TimeControlResult :=
  match s.bestChild with
  | none =>
      -- Stop despite any other instructions if the root is terminal.
      if s.rootTerminal.IsImmediate then ⟨true, fraction0, rootVisit0⟩
      else ⟨false, fraction0, rootVisit0⟩
  | some bestChild =>
      -- Infinite think takes priority: nothing else can stop the search.
      if tc.infinite then ⟨false, fraction0, rootVisit0⟩
      -- Mate can stop the search.
      else if tc.mate > 0 ∧ bestChild.terminalValue.EitherMateN > 0 ∧
          bestChild.terminalValue.EitherMateN ≤ tc.mate then
        ⟨true, fraction0, rootVisit0⟩
      -- Nodes can stop the search (the elimination baseline is captured
      -- from the root visit count before the remaining checks).
      else if tc.nodes > 0 ∧ s.nodeCount ≥ tc.nodes then
        ⟨true, fraction0, s.rootVisitCount⟩
      -- Specified think time can stop the search.
      else if tc.moveTimeMs > 0 ∧ s.searchTimeMs ≥ tc.moveTimeMs then
        ⟨true,
         (if tc.nodes > 0 then (s.nodeCount : ℚ) / (tc.nodes : ℚ) else fraction0),
         s.rootVisitCount⟩
      -- Game clock can stop the search.
      else if tc.timeRemainingMs > 0 then
        (if s.searchTimeMs ≥ GameClockTimeAllowed cfg tc then
          ⟨true, CheckTimeControl.fraction2 tc s fraction0, s.rootVisitCount⟩
        -- Stop searching early sometimes when not pondering:
        -- in game-clock mode a single legal move is just made.
        else if ¬tc.pondering ∧ s.rootIsExpanded ∧ s.rootChildCount = 1 then
          ⟨true, CheckTimeControl.fraction2 tc s fraction0, s.rootVisitCount⟩
        -- Be polite and play out forced mates relatively quickly.
        else if ¬tc.pondering ∧ s.searchTimeMs ≥ 3000 ∧
            bestChild.terminalValue.IsMateInN then
          ⟨true, CheckTimeControl.fraction2 tc s fraction0, s.rootVisitCount⟩
        else
          ⟨false,
           (s.searchTimeMs : ℚ) / ((GameClockTimeAllowed cfg tc : ℤ) : ℚ),
           s.rootVisitCount⟩)
      -- No limits set/remaining: search for the configured minimum time.
      else if tc.nodes ≤ 0 ∧ tc.mate ≤ 0 ∧ tc.moveTimeMs ≤ 0 ∧
          s.searchTimeMs ≥ cfg.absoluteMinimumMilliseconds then
        ⟨true, CheckTimeControl.fraction2 tc s fraction0, s.rootVisitCount⟩
      else
        ⟨false, CheckTimeControl.fraction2 tc s fraction0, s.rootVisitCount⟩

end SelfPlayWorker

/-- Time-control configuration used by the concrete scenarios below. -/
def wTCConfig : TimeControlConfig := ⟨20, 100, 50⟩

/-- A `go movetime 10000` time control: no game clock. -/
def wTCMoveTime : TimeControlState := ⟨false, false, 10000, 0, 0, 0, 0, 0⟩

/-- A game-clock time control with 60 s remaining. -/
def wTCClock : TimeControlState := ⟨false, false, 0, 60000, 0, 0, 0, 0⟩

/-- A snapshot 5 ms into a search whose root is expanded with exactly
one legal move and has a (non-terminal) best child. -/
def wSnapshotOneMove : SearchSnapshot :=
  ⟨some wLeafNode, TerminalValue.nonTerminal, true, 1, 5, 10, 5⟩

set_option maxHeartbeats 1000000 in
/-- C7 (counterexample).  The claim says the single-legal-move stop
fires whenever the search is neither pondering nor infinite and the
root is expanded with exactly one child; but the code nests that stop
inside the game-clock branch (`timeRemainingMs > 0`).  In a pure
`movetime` search (no game clock), with one legal move, not pondering,
not infinite, the check does not stop. -/
theorem singleLegalMove_stop_counterexample :
    wTCMoveTime.pondering = false ∧
    wTCMoveTime.infinite = false ∧
    wSnapshotOneMove.rootIsExpanded = true ∧
    wSnapshotOneMove.rootChildCount = 1 ∧
    (SelfPlayWorker.CheckTimeControl wTCConfig wTCMoveTime wSnapshotOneMove
      0 0).stop = false := by
  refine ⟨rfl, rfl, rfl, rfl, ?_⟩
  decide

/-- C7 (amended).  Whenever the search is not pondering and not
infinite, a best child exists, the game clock is active for the side to
move (`timeRemainingMs > 0`), and the root node is expanded with
exactly one child, `CheckTimeControl` stops the search (via the
single-legal-move stop or one of the stops checked before it). -/
theorem singleLegalMove_stop (cfg : TimeControlConfig) (tc : TimeControlState)
    (s : SearchSnapshot) (fraction0 : ℚ) (rootVisit0 : ℤ) (b : Node)
    (hb : s.bestChild = some b)
    (hponder : tc.pondering = false)
    (hinf : tc.infinite = false)
    (hclock : tc.timeRemainingMs > 0)
    (hexp : s.rootIsExpanded = true)
    (hone : s.rootChildCount = 1) :
    (SelfPlayWorker.CheckTimeControl cfg tc s fraction0 rootVisit0).stop = true := by
  unfold SelfPlayWorker.CheckTimeControl
  split
  next hnone =>
    rw [hb] at hnone
    exact Option.noConfusion hnone
  next bc hsome =>
    rw [if_neg (show ¬ (tc.infinite = true) by rw [hinf]; exact Bool.false_ne_true)]
    by_cases h2 : tc.mate > 0 ∧ bc.terminalValue.EitherMateN > 0 ∧
        bc.terminalValue.EitherMateN ≤ tc.mate
    · rw [if_pos h2]
    · rw [if_neg h2]
      by_cases h3 : tc.nodes > 0 ∧ s.nodeCount ≥ tc.nodes
      · rw [if_pos h3]
      · rw [if_neg h3]
        by_cases h4 : tc.moveTimeMs > 0 ∧ s.searchTimeMs ≥ tc.moveTimeMs
        · rw [if_pos h4]
        · rw [if_neg h4]
          rw [if_pos hclock]
          by_cases h6 : s.searchTimeMs ≥ SelfPlayWorker.GameClockTimeAllowed cfg tc
          · rw [if_pos h6]
          · rw [if_neg h6]
            rw [if_pos (show ¬ (tc.pondering = true) ∧ s.rootIsExpanded = true ∧
                s.rootChildCount = 1 from
              ⟨by rw [hponder]; exact Bool.false_ne_true, hexp, hone⟩)]

theorem singleLegalMove_stop_witness :
    (SelfPlayWorker.CheckTimeControl wTCConfig wTCClock wSnapshotOneMove
      0 0).stop = true :=
  singleLegalMove_stop wTCConfig wTCClock wSnapshotOneMove 0 0 wLeafNode
    rfl rfl rfl (by decide) rfl rfl

/-! ## Mate proof propagation (`SelfPlayWorker::BackpropagateMate`)

For the mate-monotonicity property only the tree structure and the
per-node terminal values matter, so the state is a map from node ids to
terminal values plus a children map (empty list = no child array).
`SetTerminalValue`'s accompanying bound/`valueAverage`/prior updates
and `FixPrincipalVariation` (which only moves `bestIndex`) do not touch
terminal values and are outside this state.

The walk processes the search path from the leaf's parent upwards, with
`childIsMate` alternating; the parents are listed bottom-up (the
reverse of the search-path prefix). -/

structure MateState where
  tv : ℕ → TerminalValue
  ch : ℕ → List ℕ

/-- The all-children sweep of the opponent-mate case: abort (`none`) as
soon as a child is not an opponent mate, else track the longest child
opponent mate, starting from the `int8` minimum. -/
def sweepLongest (σ : ℕ → TerminalValue) : List ℕ → ℤ → Option ℤ
  | [], longest => some longest
  | c :: rest, longest =>
      let childOpponentMateN := (σ c).OpponentMateN
      if childOpponentMateN ≤ 0 then none
      else sweepLongest σ rest (max longest childOpponentMateN)

/-- `SelfPlayWorker::BackpropagateMate`, walking up the given
(bottom-up) parents with the alternating odd/even rules: a child that
just became a (faster) mate makes the parent a (faster) opponent mate;
a child that just became a (faster) opponent mate makes the parent a
mate one slower than its slowest opponent-mate child, provided every
child is an opponent mate; stop when nothing improves. -/
def backpropagateMate (σ : ℕ → TerminalValue) (ch : ℕ → List ℕ) :
    List ℕ → ℕ → Bool → (ℕ → TerminalValue)
  | [], _, _ => σ
  | parent :: rest, child, childIsMate =>
      if childIsMate then
        let newMateN := (σ child).MateN
        if (σ parent).IsOpponentMateInN = false ∨
            newMateN < (σ parent).OpponentMateN then
          backpropagateMate
            (Function.update σ parent
              (TerminalValue.terminal (TerminalValue.OpponentMateIn newMateN)))
            ch rest parent false
        else σ
      else
        match sweepLongest σ (ch parent) (-128) with
        | none => σ
        | some longest =>
            backpropagateMate
              (Function.update σ parent
                (TerminalValue.terminal (TerminalValue.MateIn (longest + 1))))
              ch rest parent true

/-- A bottom-up chain: each node is a child of the next parent. -/
def ChainUp (ch : ℕ → List ℕ) : ℕ → List ℕ → Prop
  | _, [] => True
  | c, parent :: rest => c ∈ ch parent ∧ ChainUp ch parent rest

/-- The mate-consistency invariant: immediate terminals are childless;
a mate-in-k node (k ≥ 2) has only opponent-mate children at most k−1
deep; an opponent-mate-in-k node has a mate child at most k deep. -/
def MateInv (s : MateState) : Prop :=
  ∀ n : ℕ,
    ((s.tv n).IsImmediate = true → s.ch n = []) ∧
    (∀ k : ℤ, s.tv n = TerminalValue.terminal k → 2 ≤ k →
      ∀ c ∈ s.ch n, ∃ j : ℤ, s.tv c = TerminalValue.terminal (-j) ∧
        1 ≤ j ∧ j ≤ k - 1) ∧
    (∀ k : ℤ, s.tv n = TerminalValue.terminal (-k) → 1 ≤ k →
      ∃ c ∈ s.ch n, ∃ j : ℤ, s.tv c = TerminalValue.terminal j ∧
        1 ≤ j ∧ j ≤ k)

/-- Per-node evolution order: a mate only gets faster and stays a mate;
an opponent mate only gets faster, or becomes a mate (and then never
goes back); draws stay draws; non-terminals may become anything. -/
def TVLe : TerminalValue → TerminalValue → Prop
  | TerminalValue.nonTerminal, _ => True
  | TerminalValue.terminal k, b =>
      if 1 ≤ k then ∃ k2, b = TerminalValue.terminal k2 ∧ 1 ≤ k2 ∧ k2 ≤ k
      else if k ≤ -1 then
        ∃ k2, b = TerminalValue.terminal k2 ∧ ((k ≤ k2 ∧ k2 ≤ -1) ∨ 1 ≤ k2)
      else b = TerminalValue.terminal k

theorem TVLe_refl (a : TerminalValue) : TVLe a a := by
  cases a with
  | nonTerminal => trivial
  | terminal k =>
      simp only [TVLe]
      by_cases h1 : 1 ≤ k
      · rw [if_pos h1]
        exact ⟨k, rfl, h1, le_refl k⟩
      · rw [if_neg h1]
        by_cases h2 : k ≤ -1
        · rw [if_pos h2]
          exact ⟨k, rfl, Or.inl ⟨le_refl k, h2⟩⟩
        · rw [if_neg h2]
          have : k = 0 := by omega
          subst this
          trivial

theorem TVLe_trans (a b c : TerminalValue) (hab : TVLe a b) (hbc : TVLe b c) :
    TVLe a c := by
  cases a with
  | nonTerminal => trivial
  | terminal k =>
      simp only [TVLe] at hab ⊢
      by_cases h1 : 1 ≤ k
      · rw [if_pos h1] at hab ⊢
        obtain ⟨k2, hb, hk2a, hk2b⟩ := hab
        subst hb
        simp only [TVLe] at hbc
        rw [if_pos hk2a] at hbc
        obtain ⟨k3, hc, hk3a, hk3b⟩ := hbc
        exact ⟨k3, hc, hk3a, by omega⟩
      · rw [if_neg h1] at hab ⊢
        by_cases h2 : k ≤ -1
        · rw [if_pos h2] at hab ⊢
          obtain ⟨k2, hb, hcase⟩ := hab
          subst hb
          simp only [TVLe] at hbc
          rcases hcase with ⟨hk2a, hk2b⟩ | hk2
          · rw [if_neg (by omega), if_pos hk2b] at hbc
            obtain ⟨k3, hc, hcase3⟩ := hbc
            refine ⟨k3, hc, ?_⟩
            rcases hcase3 with ⟨h3a, h3b⟩ | h3
            · exact Or.inl ⟨by omega, h3b⟩
            · exact Or.inr h3
          · rw [if_pos hk2] at hbc
            obtain ⟨k3, hc, hk3a, _⟩ := hbc
            exact ⟨k3, hc, Or.inr hk3a⟩
        · rw [if_neg h2] at hab ⊢
          have hk0 : k = 0 := by omega
          subst hk0
          subst hab
          simp only [TVLe] at hbc
          rw [if_neg (by omega), if_neg (by omega)] at hbc
          exact hbc

theorem isImmediate_terminal_iff (v : ℤ) :
    (TerminalValue.terminal v).IsImmediate = true ↔ (v = 0 ∨ v = 1) := by
  simp [TerminalValue.IsImmediate, TerminalValue.Draw, TerminalValue.MateIn]

theorem isOpp_terminal_false_iff (v : ℤ) :
    (TerminalValue.terminal v).IsOpponentMateInN = false ↔ 0 ≤ v := by
  simp [TerminalValue.IsOpponentMateInN]

theorem oppN_terminal (v : ℤ) :
    (TerminalValue.terminal v).OpponentMateN = max 0 (-v) := rfl

theorem mateN_terminal (v : ℤ) :
    (TerminalValue.terminal v).MateN = max 0 v := rfl

theorem opp_of_oppN_pos (a : TerminalValue) (h : 0 < a.OpponentMateN) :
    ∃ j, 1 ≤ j ∧ a = TerminalValue.terminal (-j) ∧ a.OpponentMateN = j := by
  cases a with
  | nonTerminal => simp [TerminalValue.OpponentMateN] at h
  | terminal v =>
      rw [oppN_terminal] at h ⊢
      refine ⟨-v, ?_, ?_, ?_⟩
      · omega
      · congr 1
        omega
      · omega

theorem sweepLongest_some_mem (σ : ℕ → TerminalValue) (l : List ℕ) :
    ∀ acc v, sweepLongest σ l acc = some v →
      (∀ c ∈ l, 0 < (σ c).OpponentMateN ∧ (σ c).OpponentMateN ≤ v) ∧ acc ≤ v := by
  induction l with
  | nil =>
      intro acc v h
      simp [sweepLongest] at h
      subst h
      exact ⟨by simp, le_refl acc⟩
  | cons c rest ih =>
      intro acc v h
      simp only [sweepLongest] at h
      by_cases hc : (σ c).OpponentMateN ≤ 0
      · rw [if_pos hc] at h
        exact Option.noConfusion h
      · rw [if_neg hc] at h
        have hrest := ih _ _ h
        have hmaxle : max acc ((σ c).OpponentMateN) ≤ v := hrest.2
        have hup : (σ c).OpponentMateN ≤ max acc ((σ c).OpponentMateN) :=
          le_max_right _ _
        have hacc : acc ≤ max acc ((σ c).OpponentMateN) := le_max_left _ _
        refine ⟨?_, by linarith⟩
        intro d hd
        rcases List.mem_cons.mp hd with hdc | hd
        · subst hdc
          exact ⟨by omega, by linarith⟩
        · exact hrest.1 d hd

theorem sweepLongest_le_bound (σ : ℕ → TerminalValue) (l : List ℕ) (B : ℤ) :
    ∀ acc v, (∀ c ∈ l, (σ c).OpponentMateN ≤ B) → acc ≤ B →
      sweepLongest σ l acc = some v → v ≤ B := by
  induction l with
  | nil =>
      intro acc v _ haccB h
      simp [sweepLongest] at h
      omega
  | cons c rest ih =>
      intro acc v hbound haccB h
      simp only [sweepLongest] at h
      by_cases hc : (σ c).OpponentMateN ≤ 0
      · rw [if_pos hc] at h
        exact Option.noConfusion h
      · rw [if_neg hc] at h
        refine ih _ _ (fun d hd => hbound d (List.mem_cons_of_mem _ hd)) ?_ h
        exact max_le haccB (hbound c (List.mem_cons_self _ _))

theorem parent_cases (σ : ℕ → TerminalValue) (ch : ℕ → List ℕ)
    (hInv : MateInv ⟨σ, ch⟩) (parent c : ℕ) (hc : c ∈ ch parent)
    (m : ℤ) (hm : 1 ≤ m) (hcm : σ c = TerminalValue.terminal m) :
    σ parent = TerminalValue.nonTerminal ∨
      ∃ k, 1 ≤ k ∧ σ parent = TerminalValue.terminal (-k) := by
  cases hp : σ parent with
  | nonTerminal => exact Or.inl rfl
  | terminal v =>
      by_cases hv2 : 2 ≤ v
      · obtain ⟨j, hj, hj1, hj2⟩ := (hInv parent).2.1 v hp hv2 c hc
        have hj' : σ c = TerminalValue.terminal (-j) := hj
        rw [hcm] at hj'
        exfalso
        have hmj : m = -j := by
          injection hj' with h
        omega
      · by_cases hvneg : v ≤ -1
        · refine Or.inr ⟨-v, by omega, ?_⟩
          congr 1
          omega
        · exfalso
          have himm : (σ parent).IsImmediate = true := by
            rw [hp, isImmediate_terminal_iff]
            omega
          have hempty : ch parent = [] := (hInv parent).1 himm
          rw [hempty] at hc
          simp at hc

theorem parent_not_opp_of_sweep (σ : ℕ → TerminalValue) (ch : ℕ → List ℕ)
    (hInv : MateInv ⟨σ, ch⟩) (parent : ℕ) (acc v : ℤ)
    (hs : sweepLongest σ (ch parent) acc = some v) :
    ∀ k, 1 ≤ k → σ parent ≠ TerminalValue.terminal (-k) := by
  intro k hk hp
  obtain ⟨c, hc, j, hcj, hj1, _⟩ := (hInv parent).2.2 k hp hk
  have hcj' : σ c = TerminalValue.terminal j := hcj
  have hcmem : c ∈ ch parent := hc
  have hpos := ((sweepLongest_some_mem σ (ch parent) acc v hs).1 c hcmem).1
  rw [hcj', oppN_terminal] at hpos
  omega

/-- Setting a parent to `OpponentMateIn(m)` — because a child just
became `MateIn(m)` and the guard passed — preserves the
mate-consistency invariant and the per-node ordering. -/
theorem setOpp_inv (σ : ℕ → TerminalValue) (ch : ℕ → List ℕ)
    (hInv : MateInv ⟨σ, ch⟩) (parent child : ℕ) (hc : child ∈ ch parent)
    (m : ℤ) (hm : 1 ≤ m) (hcm : σ child = TerminalValue.terminal m)
    (hguard : σ parent = TerminalValue.nonTerminal ∨
      ∃ k, 1 ≤ k ∧ σ parent = TerminalValue.terminal (-k) ∧ m < k) :
    MateInv ⟨Function.update σ parent (TerminalValue.terminal (-m)), ch⟩ ∧
    TVLe (σ parent) (TerminalValue.terminal (-m)) := by
  have hparentne : ∀ j : ℤ, 1 ≤ j → σ parent ≠ TerminalValue.terminal j := by
    intro j hj hpj
    rcases hguard with h | ⟨k, hk, h, _⟩
    · rw [hpj] at h
      exact TerminalValue.noConfusion h
    · rw [hpj] at h
      have hjk : j = -k := by injection h
      omega
  have hchildne : child ≠ parent := fun heq => hparentne m hm (heq ▸ hcm)
  have hupd_ne : ∀ n, n ≠ parent →
      Function.update σ parent (TerminalValue.terminal (-m)) n = σ n :=
    fun n hn => Function.update_noteq hn _ _
  have hupd_eq : Function.update σ parent (TerminalValue.terminal (-m)) parent =
      TerminalValue.terminal (-m) := Function.update_same _ _ _
  constructor
  · intro q
    refine ⟨?_, ?_, ?_⟩
    · intro h
      show ch q = []
      have h1 : (Function.update σ parent (TerminalValue.terminal (-m)) q).IsImmediate = true := h
      by_cases hq : q = parent
      · rw [hq, hupd_eq] at h1
        rw [isImmediate_terminal_iff] at h1
        omega
      · rw [hupd_ne q hq] at h1
        exact (hInv q).1 h1
    · intro k hk hk2 c hcmem
      have hcmem1 : c ∈ ch q := hcmem
      have hk1 : Function.update σ parent (TerminalValue.terminal (-m)) q =
          TerminalValue.terminal k := hk
      by_cases hq : q = parent
      · rw [hq, hupd_eq] at hk1
        have hmk : -m = k := by injection hk1
        exact absurd hk2 (by omega)
      · rw [hupd_ne q hq] at hk1
        obtain ⟨j, hj, hj1, hj2⟩ := (hInv q).2.1 k hk1 hk2 c hcmem1
        have hj3 : σ c = TerminalValue.terminal (-j) := hj
        by_cases hcp : c = parent
        · refine ⟨m, ?_, hm, ?_⟩
          · show Function.update σ parent (TerminalValue.terminal (-m)) c =
              TerminalValue.terminal (-m)
            rw [hcp, hupd_eq]
          · have hpar : σ parent = TerminalValue.terminal (-j) := hcp ▸ hj3
            rcases hguard with h | ⟨kp, hkp, h, hmkp⟩
            · rw [hpar] at h
              exact TerminalValue.noConfusion h
            · rw [hpar] at h
              have hjkp : -j = -kp := by injection h
              omega
        · refine ⟨j, ?_, hj1, hj2⟩
          show Function.update σ parent (TerminalValue.terminal (-m)) c =
            TerminalValue.terminal (-j)
          rw [hupd_ne c hcp]
          exact hj3
    · intro k hk hk1
      have hk2 : Function.update σ parent (TerminalValue.terminal (-m)) q =
          TerminalValue.terminal (-k) := hk
      by_cases hq : q = parent
      · rw [hq, hupd_eq] at hk2
        have hkm : -m = -k := by injection hk2
        refine ⟨child, ?_, m, ?_, hm, by omega⟩
        · show child ∈ ch q
          rw [hq]
          exact hc
        · show Function.update σ parent (TerminalValue.terminal (-m)) child =
            TerminalValue.terminal m
          rw [hupd_ne child hchildne]
          exact hcm
      · rw [hupd_ne q hq] at hk2
        obtain ⟨c, hcmem, j, hcj, hj1, hj2⟩ := (hInv q).2.2 k hk2 hk1
        have hcj1 : σ c = TerminalValue.terminal j := hcj
        have hcmem1 : c ∈ ch q := hcmem
        have hcp : c ≠ parent := fun heq => hparentne j hj1 (heq ▸ hcj1)
        refine ⟨c, hcmem1, j, ?_, hj1, hj2⟩
        show Function.update σ parent (TerminalValue.terminal (-m)) c =
          TerminalValue.terminal j
        rw [hupd_ne c hcp]
        exact hcj1
  · rcases hguard with h | ⟨k, hk, h, hmk⟩
    · rw [h]
      trivial
    · rw [h]
      simp only [TVLe]
      rw [if_neg (by omega : ¬ (1:ℤ) ≤ -k), if_pos (by omega : -k ≤ -1)]
      exact ⟨-m, rfl, Or.inl ⟨by omega, by omega⟩⟩

/-- Setting a parent to `MateIn(v+1)` — because the all-children sweep
succeeded with longest opponent mate `v` — preserves the
mate-consistency invariant and the per-node ordering. -/
theorem setMate_inv (σ : ℕ → TerminalValue) (ch : ℕ → List ℕ)
    (hInv : MateInv ⟨σ, ch⟩) (parent child : ℕ) (hc : child ∈ ch parent)
    (m : ℤ) (hm : 1 ≤ m) (hcm : σ child = TerminalValue.terminal (-m))
    (v : ℤ) (hs : sweepLongest σ (ch parent) (-128) = some v) :
    MateInv ⟨Function.update σ parent (TerminalValue.terminal (v + 1)), ch⟩ ∧
    TVLe (σ parent) (TerminalValue.terminal (v + 1)) ∧ 1 ≤ v := by
  have hmem := (sweepLongest_some_mem σ (ch parent) (-128) v hs).1
  have hvm : 1 ≤ v := by
    have hch := hmem child hc
    rw [hcm, oppN_terminal] at hch
    omega
  have hnotopp := parent_not_opp_of_sweep σ ch hInv parent (-128) v hs
  have hparent : σ parent = TerminalValue.nonTerminal ∨
      ∃ w, 2 ≤ w ∧ σ parent = TerminalValue.terminal w ∧ v + 1 ≤ w := by
    cases hp : σ parent with
    | nonTerminal => exact Or.inl rfl
    | terminal w =>
        refine Or.inr ⟨w, ?_, rfl, ?_⟩
        · by_cases hw2 : 2 ≤ w
          · exact hw2
          · exfalso
            by_cases hw0 : 0 ≤ w
            · have himm : (σ parent).IsImmediate = true := by
                rw [hp, isImmediate_terminal_iff]
                omega
              have hempty : ch parent = [] := (hInv parent).1 himm
              rw [hempty] at hc
              exact absurd hc (List.not_mem_nil child)
            · exact hnotopp (-w) (by omega) (by rw [hp]; congr 1; omega)
        · by_cases hw2 : 2 ≤ w
          · have hbound : ∀ c ∈ ch parent, (σ c).OpponentMateN ≤ w - 1 := by
              intro c hcmem
              obtain ⟨j, hj, hj1, hj2⟩ := (hInv parent).2.1 w hp hw2 c hcmem
              have hj3 : σ c = TerminalValue.terminal (-j) := hj
              rw [hj3, oppN_terminal]
              omega
            have := sweepLongest_le_bound σ (ch parent) (w - 1) (-128) v hbound
              (by omega) hs
            omega
          · exfalso
            by_cases hw0 : 0 ≤ w
            · have himm : (σ parent).IsImmediate = true := by
                rw [hp, isImmediate_terminal_iff]
                omega
              have hempty : ch parent = [] := (hInv parent).1 himm
              rw [hempty] at hc
              exact absurd hc (List.not_mem_nil child)
            · exact hnotopp (-w) (by omega) (by rw [hp]; congr 1; omega)
  have hupd_ne : ∀ n, n ≠ parent →
      Function.update σ parent (TerminalValue.terminal (v + 1)) n = σ n :=
    fun n hn => Function.update_noteq hn _ _
  have hupd_eq : Function.update σ parent (TerminalValue.terminal (v + 1)) parent =
      TerminalValue.terminal (v + 1) := Function.update_same _ _ _
  refine ⟨?_, ?_, hvm⟩
  · intro q
    refine ⟨?_, ?_, ?_⟩
    · intro h
      show ch q = []
      have h1 : (Function.update σ parent (TerminalValue.terminal (v + 1)) q).IsImmediate
          = true := h
      by_cases hq : q = parent
      · rw [hq, hupd_eq] at h1
        rw [isImmediate_terminal_iff] at h1
        omega
      · rw [hupd_ne q hq] at h1
        exact (hInv q).1 h1
    · intro k hk hk2 c hcmem
      have hcmem1 : c ∈ ch q := hcmem
      have hk1 : Function.update σ parent (TerminalValue.terminal (v + 1)) q =
          TerminalValue.terminal k := hk
      by_cases hq : q = parent
      · rw [hq, hupd_eq] at hk1
        have hvk : v + 1 = k := by injection hk1
        have hcq : c ∈ ch parent := by rw [← hq]; exact hcmem1
        obtain ⟨hpos, hle⟩ := hmem c hcq
        obtain ⟨j, hj1, hj2, hj3⟩ := opp_of_oppN_pos (σ c) hpos
        have hcp : c ≠ parent := by
          intro heq
          exact hnotopp j hj1 (heq ▸ hj2)
        refine ⟨j, ?_, hj1, by omega⟩
        show Function.update σ parent (TerminalValue.terminal (v + 1)) c =
          TerminalValue.terminal (-j)
        rw [hupd_ne c hcp]
        exact hj2
      · rw [hupd_ne q hq] at hk1
        obtain ⟨j, hj, hj1, hj2⟩ := (hInv q).2.1 k hk1 hk2 c hcmem1
        have hj3 : σ c = TerminalValue.terminal (-j) := hj
        have hcp : c ≠ parent := by
          intro heq
          exact hnotopp j hj1 (heq ▸ hj3)
        refine ⟨j, ?_, hj1, hj2⟩
        show Function.update σ parent (TerminalValue.terminal (v + 1)) c =
          TerminalValue.terminal (-j)
        rw [hupd_ne c hcp]
        exact hj3
    · intro k hk hk1
      have hk2 : Function.update σ parent (TerminalValue.terminal (v + 1)) q =
          TerminalValue.terminal (-k) := hk
      by_cases hq : q = parent
      · rw [hq, hupd_eq] at hk2
        have hvk : v + 1 = -k := by injection hk2
        omega
      · rw [hupd_ne q hq] at hk2
        obtain ⟨c, hcmem, j, hcj, hj1, hj2⟩ := (hInv q).2.2 k hk2 hk1
        have hcj1 : σ c = TerminalValue.terminal j := hcj
        have hcmem1 : c ∈ ch q := hcmem
        by_cases hcp : c = parent
        · rcases hparent with h | ⟨w, hw2, hw, hwv⟩
          · rw [hcp, h] at hcj1
            exact absurd hcj1 (by intro hx; exact TerminalValue.noConfusion hx)
          · have hjw : j = w := by
              rw [hcp, hw] at hcj1
              injection hcj1 with h
              omega
            refine ⟨parent, ?_, v + 1, ?_, by omega, by omega⟩
            · show parent ∈ ch q
              rw [← hcp]
              exact hcmem1
            · show Function.update σ parent (TerminalValue.terminal (v + 1)) parent =
                TerminalValue.terminal (v + 1)
              exact hupd_eq
        · refine ⟨c, hcmem1, j, ?_, hj1, hj2⟩
          show Function.update σ parent (TerminalValue.terminal (v + 1)) c =
            TerminalValue.terminal j
          rw [hupd_ne c hcp]
          exact hcj1
  · rcases hparent with h | ⟨w, hw2, hw, hwv⟩
    · rw [h]
      trivial
    · rw [hw]
      simp only [TVLe]
      rw [if_pos (by omega : (1:ℤ) ≤ w)]
      exact ⟨v + 1, rfl, by omega, hwv⟩

/-- The full walk of `BackpropagateMate` preserves the mate-consistency
invariant and only moves every node up the per-node order. -/
theorem bpMate_inv_mono (ch : ℕ → List ℕ) (parents : List ℕ) :
    ∀ (child : ℕ) (flag : Bool) (σ : ℕ → TerminalValue),
      MateInv ⟨σ, ch⟩ →
      ChainUp ch child parents →
      (flag = true → ∃ m, 1 ≤ m ∧ σ child = TerminalValue.terminal m) →
      (flag = false → ∃ m, 1 ≤ m ∧ σ child = TerminalValue.terminal (-m)) →
      MateInv ⟨backpropagateMate σ ch parents child flag, ch⟩ ∧
      ∀ n, TVLe (σ n) (backpropagateMate σ ch parents child flag n) := by
  induction parents with
  | nil =>
      intro child flag σ hInv _ _ _
      exact ⟨hInv, fun n => TVLe_refl _⟩
  | cons parent rest ih =>
      intro child flag σ hInv hchain hmate hopp
      obtain ⟨hcmem, hchain2⟩ := hchain
      cases flag with
      | true =>
          obtain ⟨m, hm, hcm⟩ := hmate rfl
          have hMateN : (σ child).MateN = m := by
            rw [hcm, mateN_terminal]
            omega
          by_cases hcond : (σ parent).IsOpponentMateInN = false ∨
              (σ child).MateN < (σ parent).OpponentMateN
          · have hguard : σ parent = TerminalValue.nonTerminal ∨
                ∃ k, 1 ≤ k ∧ σ parent = TerminalValue.terminal (-k) ∧ m < k := by
              rcases parent_cases σ ch hInv parent child hcmem m hm hcm with h | ⟨k, hk, h⟩
              · exact Or.inl h
              · refine Or.inr ⟨k, hk, h, ?_⟩
                rcases hcond with h2 | h2
                · rw [h, isOpp_terminal_false_iff] at h2
                  omega
                · rw [hMateN, h, oppN_terminal] at h2
                  omega
            obtain ⟨hinv1, htv1⟩ := setOpp_inv σ ch hInv parent child hcmem m hm hcm hguard
            have hσeq : Function.update σ parent
                (TerminalValue.terminal (TerminalValue.OpponentMateIn ((σ child).MateN))) =
                Function.update σ parent (TerminalValue.terminal (-m)) := by
              rw [hMateN]
              rfl
            have hstep : backpropagateMate σ ch (parent :: rest) child true =
                backpropagateMate
                  (Function.update σ parent (TerminalValue.terminal (-m)))
                  ch rest parent false := by
              simp only [backpropagateMate]
              rw [if_pos trivial, if_pos hcond, hσeq]
            rw [hstep]
            have hrec := ih parent false
              (Function.update σ parent (TerminalValue.terminal (-m))) hinv1 hchain2
              (fun h => nomatch h)
              (fun _ => ⟨m, hm, Function.update_same _ _ _⟩)
            refine ⟨hrec.1, ?_⟩
            intro n
            refine TVLe_trans _ _ _ ?_ (hrec.2 n)
            by_cases hn : n = parent
            · rw [hn, Function.update_same]
              exact htv1
            · rw [Function.update_noteq hn]
              exact TVLe_refl _
          · have hstep : backpropagateMate σ ch (parent :: rest) child true = σ := by
              simp only [backpropagateMate]
              rw [if_pos trivial, if_neg hcond]
            rw [hstep]
            exact ⟨hInv, fun n => TVLe_refl _⟩
      | false =>
          obtain ⟨m, hm, hcm⟩ := hopp rfl
          cases hsw : sweepLongest σ (ch parent) (-128) with
          | none =>
              have hstep : backpropagateMate σ ch (parent :: rest) child false = σ := by
                simp only [backpropagateMate]
                rw [hsw]
                rfl
              rw [hstep]
              exact ⟨hInv, fun n => TVLe_refl _⟩
          | some v =>
              obtain ⟨hinv1, htv1, hv1⟩ :=
                setMate_inv σ ch hInv parent child hcmem m hm hcm v hsw
              have hstep : backpropagateMate σ ch (parent :: rest) child false =
                  backpropagateMate
                    (Function.update σ parent (TerminalValue.terminal (v + 1)))
                    ch rest parent true := by
                simp only [backpropagateMate]
                rw [hsw]
                rfl
              rw [hstep]
              have hrec := ih parent true
                (Function.update σ parent (TerminalValue.terminal (v + 1))) hinv1 hchain2
                (fun _ => ⟨v + 1, by omega, Function.update_same _ _ _⟩)
                (fun h => nomatch h)
              refine ⟨hrec.1, ?_⟩
              intro n
              refine TVLe_trans _ _ _ ?_ (hrec.2 n)
              by_cases hn : n = parent
              · rw [hn, Function.update_same]
                exact htv1
              · rw [Function.update_noteq hn]
                exact TVLe_refl _

/-- Setting a childless non-terminal leaf to an immediate terminal value
(draw 0 or checkmate `MateIn(1)`) preserves the mate-consistency
invariant. -/
theorem setLeaf_inv (σ : ℕ → TerminalValue) (ch : ℕ → List ℕ)
    (hInv : MateInv ⟨σ, ch⟩) (leaf : ℕ) (hnt : σ leaf = TerminalValue.nonTerminal)
    (hch : ch leaf = []) (t : ℤ) (ht0 : 0 ≤ t) (ht1 : t ≤ 1) :
    MateInv ⟨Function.update σ leaf (TerminalValue.terminal t), ch⟩ := by
  have hupd_ne : ∀ n, n ≠ leaf →
      Function.update σ leaf (TerminalValue.terminal t) n = σ n :=
    fun n hn => Function.update_noteq hn _ _
  intro q
  refine ⟨?_, ?_, ?_⟩
  · intro h
    show ch q = []
    by_cases hq : q = leaf
    · rw [hq]
      exact hch
    · have h1 : (Function.update σ leaf (TerminalValue.terminal t) q).IsImmediate = true := h
      rw [hupd_ne q hq] at h1
      exact (hInv q).1 h1
  · intro k hk hk2 c hcmem
    have hcmem1 : c ∈ ch q := hcmem
    have hk1 : Function.update σ leaf (TerminalValue.terminal t) q =
        TerminalValue.terminal k := hk
    by_cases hq : q = leaf
    · rw [hq, Function.update_same] at hk1
      have htk : t = k := by injection hk1
      exact absurd hk2 (by omega)
    · rw [hupd_ne q hq] at hk1
      obtain ⟨j, hj, hj1, hj2⟩ := (hInv q).2.1 k hk1 hk2 c hcmem1
      have hj3 : σ c = TerminalValue.terminal (-j) := hj
      have hcp : c ≠ leaf := by
        intro heq
        rw [heq, hnt] at hj3
        exact TerminalValue.noConfusion hj3
      refine ⟨j, ?_, hj1, hj2⟩
      show Function.update σ leaf (TerminalValue.terminal t) c =
        TerminalValue.terminal (-j)
      rw [hupd_ne c hcp]
      exact hj3
  · intro k hk hk1
    have hk2 : Function.update σ leaf (TerminalValue.terminal t) q =
        TerminalValue.terminal (-k) := hk
    by_cases hq : q = leaf
    · rw [hq, Function.update_same] at hk2
      have htk : t = -k := by injection hk2
      omega
    · rw [hupd_ne q hq] at hk2
      obtain ⟨c, hcmem, j, hcj, hj1, hj2⟩ := (hInv q).2.2 k hk2 hk1
      have hcj1 : σ c = TerminalValue.terminal j := hcj
      have hcmem1 : c ∈ ch q := hcmem
      have hcp : c ≠ leaf := by
        intro heq
        rw [heq, hnt] at hcj1
        exact TerminalValue.noConfusion hcj1
      refine ⟨c, hcmem1, j, ?_, hj1, hj2⟩
      show Function.update σ leaf (TerminalValue.terminal t) c =
        TerminalValue.terminal j
      rw [hupd_ne c hcp]
      exact hcj1

/-- One terminal-value event of the search, as performed by `RunMcts`:
a leaf found checkmated at expansion (`SetTerminalValue(MateIn(1))`,
then `BackpropagateMate` up the visit path), a leaf found drawn at
expansion, or a plain expansion that gives a childless leaf children. -/
inductive MateStep : MateState → MateState → Prop
  | mateLeaf (s : MateState) (leaf : ℕ) (parentsRev : List ℕ)
      (hnt : s.tv leaf = TerminalValue.nonTerminal)
      (hch : s.ch leaf = [])
      (hchain : ChainUp s.ch leaf parentsRev) :
      MateStep s ⟨backpropagateMate
        (Function.update s.tv leaf (TerminalValue.terminal 1))
        s.ch parentsRev leaf true, s.ch⟩
  | drawLeaf (s : MateState) (leaf : ℕ)
      (hnt : s.tv leaf = TerminalValue.nonTerminal)
      (hch : s.ch leaf = []) :
      MateStep s ⟨Function.update s.tv leaf (TerminalValue.terminal 0), s.ch⟩
  | expandLeaf (s : MateState) (leaf : ℕ) (kids : List ℕ)
      (hnt : s.tv leaf = TerminalValue.nonTerminal)
      (hch : s.ch leaf = []) :
      MateStep s ⟨s.tv, Function.update s.ch leaf kids⟩

/-- Every single search event preserves the mate-consistency invariant
and moves every node's terminal value up the per-node order. -/
theorem MateStep_inv_mono (s s2 : MateState) (h : MateStep s s2) (hInv : MateInv s) :
    MateInv s2 ∧ ∀ n, TVLe (s.tv n) (s2.tv n) := by
  cases h with
  | mateLeaf leaf parentsRev hnt hch hchain =>
      have hinv1 := setLeaf_inv s.tv s.ch hInv leaf hnt hch 1 (by omega) (by omega)
      have hrec := bpMate_inv_mono s.ch parentsRev leaf true
        (Function.update s.tv leaf (TerminalValue.terminal 1)) hinv1 hchain
        (fun _ => ⟨1, by omega, Function.update_same _ _ _⟩)
        (fun h2 => nomatch h2)
      refine ⟨hrec.1, ?_⟩
      intro n
      refine TVLe_trans _ _ _ ?_ (hrec.2 n)
      by_cases hn : n = leaf
      · rw [hn, Function.update_same, hnt]
        trivial
      · rw [Function.update_noteq hn]
        exact TVLe_refl _
  | drawLeaf leaf hnt hch =>
      refine ⟨setLeaf_inv s.tv s.ch hInv leaf hnt hch 0 (by omega) (by omega), ?_⟩
      intro n
      show TVLe (s.tv n) (Function.update s.tv leaf (TerminalValue.terminal 0) n)
      by_cases hn : n = leaf
      · rw [hn, Function.update_same, hnt]
        trivial
      · rw [Function.update_noteq hn]
        exact TVLe_refl _
  | expandLeaf leaf kids hnt hch =>
      refine ⟨?_, fun n => TVLe_refl _⟩
      intro q
      refine ⟨?_, ?_, ?_⟩
      · intro h
        have h1 : (s.tv q).IsImmediate = true := h
        show Function.update s.ch leaf kids q = []
        by_cases hq : q = leaf
        · rw [hq, hnt] at h1
          exact absurd h1 (by decide)
        · rw [Function.update_noteq hq]
          exact (hInv q).1 h1
      · intro k hk hk2 c hcmem
        have hk1 : s.tv q = TerminalValue.terminal k := hk
        have hcmem1 : c ∈ Function.update s.ch leaf kids q := hcmem
        by_cases hq : q = leaf
        · rw [hq, hnt] at hk1
          exact absurd hk1 (by intro hx; exact TerminalValue.noConfusion hx)
        · rw [Function.update_noteq hq] at hcmem1
          obtain ⟨j, hj, hj1, hj2⟩ := (hInv q).2.1 k hk1 hk2 c hcmem1
          exact ⟨j, hj, hj1, hj2⟩
      · intro k hk hk1
        have hk2 : s.tv q = TerminalValue.terminal (-k) := hk
        by_cases hq : q = leaf
        · rw [hq, hnt] at hk2
          exact absurd hk2 (by intro hx; exact TerminalValue.noConfusion hx)
        · obtain ⟨c, hcmem, j, hcj, hj1, hj2⟩ := (hInv q).2.2 k hk2 hk1
          have hcmem1 : c ∈ s.ch q := hcmem
          refine ⟨c, ?_, j, hcj, hj1, hj2⟩
          show c ∈ Function.update s.ch leaf kids q
          rw [Function.update_noteq hq]
          exact hcmem1

/-- Across any run of search events, the invariant persists and every
node's terminal value only moves up the per-node order. -/
theorem MateSteps_tvle (s s2 : MateState)
    (hsteps : Relation.ReflTransGen MateStep s s2) (hInv : MateInv s) :
    MateInv s2 ∧ ∀ n, TVLe (s.tv n) (s2.tv n) := by
  induction hsteps with
  | refl => exact ⟨hInv, fun n => TVLe_refl _⟩
  | tail hab hbc ih =>
      obtain ⟨hib, htab⟩ := ih
      obtain ⟨hic, htbc⟩ := MateStep_inv_mono _ _ hbc hib
      exact ⟨hic, fun n => TVLe_trans _ _ _ (htab n) (htbc n)⟩

/-- C3: mate monotonicity. Across any sequence of terminal-value events
performed by `BackpropagateMate` and leaf expansion, starting from a
mate-consistent tree, once a node's terminal value is `MateIn(k)` it is
never later `MateIn(k2)` with `k2 > k`, and once it is
`OpponentMateIn(k)` it is never later `OpponentMateIn(k2)` with
`k2 > k`. -/
theorem mate_monotonicity (s s2 : MateState)
    (hsteps : Relation.ReflTransGen MateStep s s2) (hInv : MateInv s) :
    (∀ n k k2, s.tv n = TerminalValue.terminal (TerminalValue.MateIn k) → 1 ≤ k →
      s2.tv n = TerminalValue.terminal (TerminalValue.MateIn k2) → 1 ≤ k2 → k2 ≤ k) ∧
    (∀ n k k2, s.tv n = TerminalValue.terminal (TerminalValue.OpponentMateIn k) → 1 ≤ k →
      s2.tv n = TerminalValue.terminal (TerminalValue.OpponentMateIn k2) → 1 ≤ k2 →
      k2 ≤ k) := by
  have htvle := (MateSteps_tvle s s2 hsteps hInv).2
  constructor
  · intro n k k2 hk hk1 hk2 hk21
    have h := htvle n
    rw [hk] at h
    simp only [TVLe] at h
    rw [if_pos (by simp only [TerminalValue.MateIn]; omega :
      (1:ℤ) ≤ TerminalValue.MateIn k)] at h
    obtain ⟨j, hj, hj1, hj2⟩ := h
    rw [hk2] at hj
    have hjk : TerminalValue.MateIn k2 = j := by injection hj
    simp only [TerminalValue.MateIn] at hjk hj2 ⊢
    omega
  · intro n k k2 hk hk1 hk2 hk21
    have h := htvle n
    rw [hk] at h
    simp only [TVLe] at h
    rw [if_neg (by simp only [TerminalValue.OpponentMateIn]; omega :
      ¬ (1:ℤ) ≤ TerminalValue.OpponentMateIn k)] at h
    rw [if_pos (by simp only [TerminalValue.OpponentMateIn]; omega :
      TerminalValue.OpponentMateIn k ≤ -1)] at h
    obtain ⟨j, hj, hj2⟩ := h
    rw [hk2] at hj
    have hjk : TerminalValue.OpponentMateIn k2 = j := by injection hj
    simp only [TerminalValue.OpponentMateIn] at hjk hj2 ⊢
    omega

def wMateTree : MateState :=
  ⟨fun n => if n = 0 then TerminalValue.terminal (-1)
    else if n = 1 then TerminalValue.terminal 1 else TerminalValue.nonTerminal,
   fun n => if n = 0 then [1] else []⟩

theorem wMateTree_inv : MateInv wMateTree := by
  intro q
  refine ⟨?_, ?_, ?_⟩
  · intro h
    show (if q = 0 then [1] else []) = []
    by_cases h0 : q = 0
    · exfalso
      have h1 : (wMateTree.tv q).IsImmediate = true := h
      rw [h0] at h1
      exact absurd h1 (by decide)
    · rw [if_neg h0]
  · intro k hk hk2 c hcmem
    have hk1 : (if q = 0 then TerminalValue.terminal (-1)
        else if q = 1 then TerminalValue.terminal 1
        else TerminalValue.nonTerminal) = TerminalValue.terminal k := hk
    by_cases h0 : q = 0
    · rw [if_pos h0] at hk1
      have : (-1 : ℤ) = k := by injection hk1
      omega
    · rw [if_neg h0] at hk1
      by_cases h1 : q = 1
      · rw [if_pos h1] at hk1
        have : (1 : ℤ) = k := by injection hk1
        omega
      · rw [if_neg h1] at hk1
        exact absurd hk1 (by intro hx; exact TerminalValue.noConfusion hx)
  · intro k hk hk1
    have hk2 : (if q = 0 then TerminalValue.terminal (-1)
        else if q = 1 then TerminalValue.terminal 1
        else TerminalValue.nonTerminal) = TerminalValue.terminal (-k) := hk
    by_cases h0 : q = 0
    · rw [if_pos h0] at hk2
      have hkk : (-1 : ℤ) = -k := by injection hk2
      refine ⟨1, ?_, 1, ?_, by omega, by omega⟩
      · show 1 ∈ (if q = 0 then [1] else ([] : List ℕ))
        rw [if_pos h0]
        exact List.mem_singleton.mpr rfl
      · show (if (1:ℕ) = 0 then TerminalValue.terminal (-1)
            else if (1:ℕ) = 1 then TerminalValue.terminal 1
            else TerminalValue.nonTerminal) = TerminalValue.terminal 1
        rfl
    · rw [if_neg h0] at hk2
      by_cases h1 : q = 1
      · rw [if_pos h1] at hk2
        have : (1 : ℤ) = -k := by injection hk2
        omega
      · rw [if_neg h1] at hk2
        exact absurd hk2 (by intro hx; exact TerminalValue.noConfusion hx)

theorem mate_monotonicity_witness :
    MateInv wMateTree ∧ (1 : ℤ) ≤ 1 ∧ (1 : ℤ) ≤ 1 :=
  ⟨wMateTree_inv,
   (mate_monotonicity wMateTree
      ⟨Function.update wMateTree.tv 2 (TerminalValue.terminal 0), wMateTree.ch⟩
      (Relation.ReflTransGen.single (MateStep.drawLeaf wMateTree 2 rfl rfl))
      wMateTree_inv).1 1 1 1 rfl (by omega)
      (by
        show Function.update wMateTree.tv 2 (TerminalValue.terminal 0) 1 =
          TerminalValue.terminal (TerminalValue.MateIn 1)
        rw [Function.update_noteq (by decide : (1:ℕ) ≠ 2)]
        rfl) (by omega),
   (mate_monotonicity wMateTree
      ⟨Function.update wMateTree.tv 2 (TerminalValue.terminal 0), wMateTree.ch⟩
      (Relation.ReflTransGen.single (MateStep.drawLeaf wMateTree 2 rfl rfl))
      wMateTree_inv).2 0 1 1 rfl (by omega)
      (by
        show Function.update wMateTree.tv 2 (TerminalValue.terminal 0) 0 =
          TerminalValue.terminal (TerminalValue.OpponentMateIn 1)
        rw [Function.update_noteq (by decide : (0:ℕ) ≠ 2)]
        rfl) (by omega)⟩
